import Mathlib

/-!
# Verification of `sync_l10n.py` (aion-classic-english-patch)

A shallow embedding of the string-table synchronisation tool:

* `XMLElement`, `parseAionXml` — the character-driven state-machine parser
  for the restricted XML-like dialect (lines 17-138 of the source);
* `AionString`, `AionString.match_and_repair` — typed records and the
  repair pass (lines 142-198);
* `AionStringDict` with `read` and `write` — tables keyed by integer id,
  their extraction from a parse tree and their canonical serialization
  (lines 200-279);
* `sync_strings` — the client / reference / patch / variant reconciliation
  (lines 294-339), with the in-place mutation of shared record objects
  modelled by explicit write-back into every dict holding the same object.

File I/O, directory handling and logging text are out of scope; logging is
modelled as a list of abstract `LogEvent`s, and the UTF-16 encoding layer is
modelled as the identity on Lean strings plus byte-order-mark handling
(`stripBOM`), matching what the Python codec makes visible to the parser.
Python exceptions are modelled with `Except String`.
-/

/-! ## The XML element tree -/

structure XMLElement where
  name : String
  text : String
  children : List XMLElement
deriving Repr

/-- `XMLElement.find` (source lines 23-27): first child with the given name. -/
def XMLElement.find (e : XMLElement) (n : String) : Option XMLElement :=
  e.children.find? (fun c => c.name == n)

/-! ## The tag stream parser (`parseAionXml`, source lines 29-138)

The Python function walks the input one character at a time with an
explicit state enum; local mutable variables become fields of `ParserCfg`.
Python list `append`/`pop` stacks are modelled with the top at the head.
The buffers `tag_name_list` and `text_list` are accumulated in order
(Python appends at the end and joins). -/

inductive PState where
  | documentStart
  | xmlDeclOpening
  | xmlDecl
  | xmlDeclClosing
  | beforeRoot
  | unknownTag
  | beginTag
  | beginTagAttributes
  | endTag
  | text
deriving Repr, DecidableEq

structure ParserCfg where
  state : PState
  elementStack : List XMLElement
  currentElement : Option XMLElement
  tagNameList : List Char
  textListStack : List (List Char)
  textList : List Char
deriving Repr

/-- The overall machine: still running, returned a root early, or raised. -/
inductive MachineState where
  | running (cfg : ParserCfg)
  | finished (root : XMLElement)
  | failed (msg : String)
deriving Repr

/-- Committing an opening tag (the shared body of the `>` cases of
`BEGIN_TAG` and `BEGIN_TAG_ATTRIBUTES`, source lines 82-92 and 99-109). -/
def commitElement (cfg : ParserCfg) : MachineState :=
  .running
    { state := .text
      elementStack :=
        match cfg.currentElement with
        | some e => e :: cfg.elementStack
        | none => cfg.elementStack
      currentElement := some ⟨String.mk cfg.tagNameList, "", []⟩
      tagNameList := []
      textListStack := cfg.textList :: cfg.textListStack
      textList := [] }

/-- Processing `>` in the `END_TAG` state (source lines 112-128).
A `None` current element or an empty text stack raises in Python
(attribute/pop error); both are modelled as `failed`. -/
def closeElement (cfg : ParserCfg) : MachineState :=
  match cfg.currentElement with
  | none => .failed "AttributeError: NoneType object has no attribute name"
  | some cur =>
    if String.mk cfg.tagNameList ≠ cur.name then
      .failed ("Mismatching tag name: " ++ String.mk cfg.tagNameList)
    else
      match cfg.textListStack with
      | [] => .failed "IndexError: pop from empty list"
      | prevText :: restTextStack =>
        let closed : XMLElement := { cur with text := String.mk cfg.textList }
        match cfg.elementStack with
        | [] => .finished closed
        | parent :: restStack =>
          .running
            { state := .text
              elementStack := restStack
              currentElement := some { parent with children := parent.children ++ [closed] }
              tagNameList := []
              textListStack := restTextStack
              textList := prevText }

/-- One character of the state machine (the body of the `for` loop,
source lines 49-136). -/
def stepChar (cfg : ParserCfg) (c : Char) : MachineState :=
  match cfg.state with
  | .documentStart =>
    if c ≠ '<' then .failed "Expected XML declaration opening <"
    else .running { cfg with state := .xmlDeclOpening }
  | .xmlDeclOpening =>
    if c ≠ '?' then .failed "Expected XML declaration opening ?"
    else .running { cfg with state := .xmlDecl }
  | .xmlDecl =>
    if c = '?' then .running { cfg with state := .xmlDeclClosing }
    else .running cfg
  | .xmlDeclClosing =>
    if c = '>' then .running { cfg with state := .beforeRoot }
    else .running { cfg with state := .xmlDecl }
  | .beforeRoot =>
    if c = '<' then .running { cfg with state := .unknownTag }
    else .running cfg
  | .unknownTag =>
    if c = '/' then .running { cfg with state := .endTag }
    else .running { cfg with tagNameList := cfg.tagNameList ++ [c], state := .beginTag }
  | .beginTag =>
    if c = '>' then commitElement cfg
    else if c = ' ' then .running { cfg with state := .beginTagAttributes }
    else .running { cfg with tagNameList := cfg.tagNameList ++ [c] }
  | .beginTagAttributes =>
    if c = '>' then commitElement cfg
    else .running cfg
  | .endTag =>
    if c = '>' then closeElement cfg
    else .running { cfg with tagNameList := cfg.tagNameList ++ [c] }
  | .text =>
    if c = '<' then .running { cfg with state := .unknownTag }
    else .running { cfg with textList := cfg.textList ++ [c] }

/-- The machine step: a returned root or a raised exception stops the walk
(in Python `return`/`raise` leave the loop; later characters are unread). -/
def stepM (m : MachineState) (c : Char) : MachineState :=
  match m with
  | .running cfg => stepChar cfg c
  | s => s

def initCfg : ParserCfg := ⟨.documentStart, [], none, [], [], []⟩

def runM (m : MachineState) (cs : List Char) : MachineState :=
  cs.foldl stepM m

/-- `parseAionXml` (source lines 29-138): `ok (some root)` when the root
closing tag was consumed, `ok none` when the loop exhausted the input
first (Python falls through to `return None`), `error` on a raised
exception. -/
def parseAionXml (data : String) : Except String (Option XMLElement) :=
  match runM (.running initCfg) data.data with
  | .running _ => .ok none
  | .finished root => .ok (some root)
  | .failed msg => .error msg

def MachineState.isRunning : MachineState → Bool
  | .running _ => true
  | _ => false

/-! ## Decimal numerals

`write` renders integers with Python `str` (canonical decimal, `-` sign);
`read` parses them with Python `int`.  Both builtins are modelled here:
`intToDecimal` is the canonical decimal form, and `pyInt` accepts an
optional sign followed by one or more digits (the extra laxity of Python
`int` — surrounding whitespace and digit-group underscores — is never
exercised by this program's own output and is not modelled). -/

def digitChar (d : Nat) : Char :=
  match d with
  | 0 => '0' | 1 => '1' | 2 => '2' | 3 => '3' | 4 => '4'
  | 5 => '5' | 6 => '6' | 7 => '7' | 8 => '8' | _ => '9'

def charVal (c : Char) : Nat := c.toNat - 48

/-- Division-loop decimal digits, with explicit fuel so the definition is
structurally recursive (any fuel bounding the digit count gives the same
answer; `natToDigits` hands it `n + 1`). -/
def natToDigitsAux : Nat → Nat → List Char
  | 0, _ => []
  | fuel + 1, n =>
    if n < 10 then [digitChar n]
    else natToDigitsAux fuel (n / 10) ++ [digitChar (n % 10)]

def natToDigits (n : Nat) : List Char := natToDigitsAux (n + 1) n

def intToDecimal (i : Int) : String :=
  if i < 0 then String.mk ('-' :: natToDigits i.natAbs)
  else String.mk (natToDigits i.natAbs)

def digitsVal (cs : List Char) : Option Nat :=
  if cs ≠ [] ∧ ∀ c ∈ cs, c.isDigit then
    some (cs.foldl (fun a c => 10 * a + charVal c) 0)
  else none

def pyInt (s : String) : Option Int :=
  match s.data with
  | [] => none
  | c :: rest =>
    if c = '-' then (digitsVal rest).map (fun n => -(n : Int))
    else if c = '+' then (digitsVal rest).map (fun n => (n : Int))
    else (digitsVal (c :: rest)).map (fun n => (n : Int))

/-! ## Expression tokens (`EXPRESSION_RE`, source line 140)

`re.findall` with the pattern `\[%[^%\]].*?\]|%[0-9]`: a left-to-right,
non-overlapping scan; at each position the bracket alternative is tried
first (`[%`, one character that is neither `%` nor `]`, then a lazy run of
non-newline characters up to the first `]`), then the percent-digit
alternative; on failure the scan advances one character. -/

/-- Split at the first `]`, requiring every character before it to be
accepted by `.` (anything but a newline).  Returns the run and the rest. -/
def splitAtRBracket : List Char → Option (List Char × List Char)
  | [] => none
  | c :: rest =>
    if c = ']' then some ([], rest)
    else if c = '\n' then none
    else (splitAtRBracket rest).map (fun p => (c :: p.1, p.2))

/-- Try to match `EXPRESSION_RE` at the current position; on success return
the matched token and the remaining input. -/
def exprMatchAt (cs : List Char) : Option (String × List Char) :=
  match cs with
  | '[' :: '%' :: c :: rest =>
    if c ≠ '%' ∧ c ≠ ']' then
      match splitAtRBracket rest with
      | some (mid, rest2) => some (String.mk ('[' :: '%' :: c :: (mid ++ [']'])), rest2)
      | none => none
    else none
  | '%' :: d :: rest =>
    if d.isDigit then some (String.mk ['%', d], rest) else none
  | _ => none

theorem splitAtRBracket_length {cs a b : List Char}
    (h : splitAtRBracket cs = some (a, b)) : b.length < cs.length := by
  induction cs generalizing a b with
  | nil => simp [splitAtRBracket] at h
  | cons c rest ih =>
    rw [splitAtRBracket] at h
    by_cases h1 : c = ']'
    · simp only [h1, if_true] at h
      obtain ⟨-, rfl⟩ := Prod.mk.injEq .. ▸ Option.some.injEq .. ▸ h
      simp [Nat.lt_succ_self]
    · by_cases h2 : c = '\n'
      · simp [h1, h2] at h
      · simp only [h1, h2, if_false, Option.map_eq_some'] at h
        obtain ⟨⟨a1, b1⟩, hsplit, heq⟩ := h
        have hlt := ih hsplit
        obtain ⟨-, rfl⟩ := Prod.mk.injEq .. ▸ heq
        simp only [List.length_cons]
        omega

theorem exprMatchAt_length {cs : List Char} {m : String} {rest : List Char}
    (h : exprMatchAt cs = some (m, rest)) : rest.length < cs.length := by
  rw [exprMatchAt.eq_def] at h
  split at h
  · split at h
    · split at h
      · rename_i tl hcond mid rest2 heq
        have hlt := splitAtRBracket_length heq
        obtain ⟨-, rfl⟩ := Prod.mk.injEq .. ▸ Option.some.injEq .. ▸ h
        simp only [List.length_cons]
        omega
      · exact absurd h (by simp)
    · exact absurd h (by simp)
  · split at h
    · obtain ⟨-, rfl⟩ := Prod.mk.injEq .. ▸ Option.some.injEq .. ▸ h
      simp only [List.length_cons]
      omega
    · exact absurd h (by simp)
  · exact absurd h (by simp)

/-- `EXPRESSION_RE.findall` (source line 140): left-to-right non-overlapping
scan collecting every match. -/
def findallExpr (cs : List Char) : List String :=
  match cs with
  | [] => []
  | c :: tl =>
    match _hm : exprMatchAt (c :: tl) with
    | some (m, rest) => m :: findallExpr rest
    | none => findallExpr tl
termination_by cs.length
decreasing_by
  · exact exprMatchAt_length _hm
  · simp [Nat.lt_succ_self]

/-- Python `set(a) != set(b)` on the two findall results. -/
def sameTokenSet (a b : List String) : Bool :=
  a.all (b.contains ·) && b.all (a.contains ·)

/-! ## Records (`AionString`, source lines 142-151) -/

structure AionString where
  tag_name : String
  id_value : Int
  name : String
  body : Option String
  message_type : Option String
  display_type : Option Int
  ment : Option String
  rank : Option Int
deriving Repr, DecidableEq

/-- The severity-tagged messages `match_and_repair` and `sync_strings`
print; the interpolated text is abstracted away, the tag and the cause are
kept. -/
inductive LogEvent where
  | idMismatch          -- `[critical]`, line 155 (printed even when silent)
  | nameMismatch        -- `[error]`, line 159 (printed even when silent)
  | repairMessageType   -- `[action]`, line 165
  | repairDisplayType   -- `[action]`, line 170
  | repairMent          -- `[action]`, line 175
  | repairRank          -- `[action]`, line 180
  | bodyOnlyInL10n      -- `[warn]`, line 186 (body cleared)
  | bodyOnlyInClient    -- `[error]`, line 190 (no change)
  | bodyExprMismatch    -- `[warn]`, line 196
deriving Repr, DecidableEq

/-- The in-place mutations of a successful match (source lines 162-187):
each repairable field is overwritten by the client value when it differs,
and the translation body is cleared when the client has none and the
translation a non-empty one (the only mutating branch of the body
`if`/`elif` chain, line 187). -/
def repairedRecord (self other : AionString) : AionString :=
  let other := if self.message_type ≠ other.message_type then
    { other with message_type := self.message_type } else other
  let other := if self.display_type ≠ other.display_type then
    { other with display_type := self.display_type } else other
  let other := if self.ment ≠ other.ment then
    { other with ment := self.ment } else other
  let other := if self.rank ≠ other.rank then
    { other with rank := self.rank } else other
  if self.body = none ∧ other.body ≠ none ∧ other.body ≠ some "" then
    { other with body := none }
  else other

/-- The prints of a successful match (source lines 163-196), in source
order.  Each condition is evaluated by the source on the partially
repaired record; since every repair touches only its own field, the
original fields are compared here.  All these prints are guarded by
`silent`. -/
def repairLogs (self other : AionString) (silent : Bool) : List LogEvent :=
  (if self.message_type ≠ other.message_type ∧ ¬ silent then
    [LogEvent.repairMessageType] else [])
  ++ (if self.display_type ≠ other.display_type ∧ ¬ silent then
    [LogEvent.repairDisplayType] else [])
  ++ (if self.ment ≠ other.ment ∧ ¬ silent then
    [LogEvent.repairMent] else [])
  ++ (if self.rank ≠ other.rank ∧ ¬ silent then
    [LogEvent.repairRank] else [])
  ++ (if self.body = none ∧ other.body ≠ none ∧ other.body ≠ some "" then
        (if ¬ silent then [LogEvent.bodyOnlyInL10n] else [])
      else if self.body ≠ none ∧ self.body ≠ some "" ∧ other.body = none then
        (if ¬ silent then [LogEvent.bodyOnlyInClient] else [])
      else
        match self.body, other.body with
        | some cb, some tb =>
          if ¬ sameTokenSet (findallExpr cb.data) (findallExpr tb.data) ∧ ¬ silent then
            [LogEvent.bodyExprMismatch] else []
        | _, _ => [])

/-- `AionString.match_and_repair` (source lines 153-198) as a pure
function: Python mutates `other` in place and returns a `bool`; here the
result carries the flag, the updated `other`, and the emitted log events
in order.  `silent` suppresses the `action`/`warn`/body-`error` prints but
never the repairs themselves; the `critical` and name-`error` prints are
unconditional in the source. -/
def AionString.match_and_repair (self other : AionString) (silent : Bool) :
    Bool × AionString × List LogEvent :=
  if self.id_value ≠ other.id_value then
    (false, other, [.idMismatch])
  else if self.name ≠ other.name then
    (false, other, [.nameMismatch])
  else
    (true, repairedRecord self other, repairLogs self other silent)

/-! ## Tables (`AionStringDict`, source lines 200-279)

A Python `dict[int, AionString]` is modelled as an association list with
unique keys maintained by dict semantics: inserting an existing key
replaces its value in place, a new key is appended at the end. -/

abbrev Entry := Int × AionString

/-- `d[k] = v` (replace in place, or append for a fresh key). -/
def dictInsert : List Entry → Int → AionString → List Entry
  | [], k, v => [(k, v)]
  | (k1, v1) :: t, k, v =>
    if k1 = k then (k, v) :: t else (k1, v1) :: dictInsert t k v

/-- `d.get(k)` / `d[k]` (first entry with the key; dicts hold at most one). -/
def dictLookup (k : Int) : List Entry → Option AionString
  | [] => none
  | (k1, v1) :: t => if k1 = k then some v1 else dictLookup k t

def hasKey (d : List Entry) (k : Int) : Bool :=
  (dictLookup k d).isSome

/-- `{**a, **b}`: start from `a`, then insert every entry of `b` in order. -/
def dictMerge (a b : List Entry) : List Entry :=
  b.foldl (fun d p => dictInsert d p.1 p.2) a

structure AionStringDict where
  strings : List Entry
deriving Repr, DecidableEq

/-- The seven permitted field tags (source line 200). -/
def VALID_TAGS : List String :=
  ["id", "name", "body", "message_type", "display_type", "ment", "rank"]

/-- `int(element.text) if element is not None else None`. -/
def pyIntOpt : Option XMLElement → Except String (Option Int)
  | none => .ok none
  | some el =>
    match pyInt el.text with
    | none => .error ("invalid literal for int(): " ++ el.text)
    | some v => .ok (some v)

/-- The body of the per-child loop of `AionStringDict.read`
(source lines 221-254): validate one `<string>`/`<string_tip>` element and
materialize the record. -/
def extractAion (e : XMLElement) : Except String AionString :=
  if e.name ≠ "string" ∧ e.name ≠ "string_tip" then
    .error ("Expected <string> or <string_tip> element, got <" ++ e.name ++ "> instead!")
  else if ¬ e.children.all (fun c => VALID_TAGS.contains c.name) then
    .error "Unknow tag"
  else
    match e.find "id" with
    | none => .error "<id> element not found!"
    | some idEl =>
      match pyInt idEl.text with
      | none => .error ("invalid literal for int(): " ++ idEl.text)
      | some idv =>
        match e.find "name" with
        | none => .error ("<name> element not found for id " ++ intToDecimal idv ++ "!")
        | some nameEl =>
          let bodyV := (e.find "body").map (fun el => el.text)
          let mtV := (e.find "message_type").map (fun el => el.text)
          match pyIntOpt (e.find "display_type") with
          | .error msg => .error msg
          | .ok dtV =>
            let mentV := (e.find "ment").map (fun el => el.text)
            match pyIntOpt (e.find "rank") with
            | .error msg => .error msg
            | .ok rankV =>
              .ok ⟨e.name, idv, nameEl.text, bodyV, mtV, dtV, mentV, rankV⟩

/-- The per-child loop of `read`: `strings[id_value] = AionString(...)`. -/
def readEntries : List XMLElement → List Entry → Except String (List Entry)
  | [], acc => .ok acc
  | e :: rest, acc =>
    match extractAion e with
    | .error msg => .error msg
    | .ok s => readEntries rest (dictInsert acc s.id_value s)

/-- The `utf-16` codec consumes a leading byte-order mark; the rest of the
decoding is the identity at the level of Lean strings. -/
def stripBOM (s : String) : String :=
  match s.data with
  | '\uFEFF' :: rest => String.mk rest
  | _ => s

/-- `AionStringDict.read` (source lines 206-256) on the decoded text of an
existing file.  When `parseAionXml` returns `None` the Python caller
evaluates `None.children` and raises; that is the `ok none` branch. -/
def AionStringDict.read (content : String) : Except String AionStringDict :=
  match parseAionXml (stripBOM content) with
  | .error msg => .error msg
  | .ok none => .error "AttributeError: NoneType object has no attribute children"
  | .ok (some root) =>
    match readEntries root.children [] with
    | .error msg => .error msg
    | .ok entries => .ok ⟨entries⟩

/-! ### Serialization (`AionStringDict.write`, source lines 258-279) -/

/-- Insertion sort by key, ascending — on the distinct keys of a dict this
is exactly Python `sorted(self.strings)` order. -/
def insertSorted (p : Entry) : List Entry → List Entry
  | [] => [p]
  | q :: t => if p.1 ≤ q.1 then p :: q :: t else q :: insertSorted p t

def sortEntries : List Entry → List Entry
  | [] => []
  | p :: t => insertSorted p (sortEntries t)

/-- The field sub-elements emitted for one record, in source order
(id, name, then each optional field only when present). -/
def recordFields (s : AionString) : List (String × String) :=
  [("id", intToDecimal s.id_value), ("name", s.name)]
  ++ (match s.body with | some b => [("body", b)] | none => [])
  ++ (match s.message_type with | some v => [("message_type", v)] | none => [])
  ++ (match s.display_type with | some v => [("display_type", intToDecimal v)] | none => [])
  ++ (match s.ment with | some v => [("ment", v)] | none => [])
  ++ (match s.rank with | some v => [("rank", intToDecimal v)] | none => [])

def fieldLine (p : String × String) : String :=
  "    <" ++ p.1 ++ ">" ++ p.2 ++ "</" ++ p.1 ++ ">\r\n"

/-- Sequential concatenation (the successive `f.write` calls). -/
def concatStrings : List String → String
  | [] => ""
  | x :: t => x ++ concatStrings t

def writeRecord (s : AionString) : String :=
  "  <" ++ s.tag_name ++ ">\r\n"
  ++ concatStrings ((recordFields s).map fieldLine)
  ++ "  </" ++ s.tag_name ++ ">\r\n"

/-- `AionStringDict.write` (source lines 258-279): the text written to the
file, byte-order mark included (the file is opened `utf-16-le` with the
mark written explicitly; newline translation is off). -/
def AionStringDict.write (d : AionStringDict) (tag : String) : String :=
  "\uFEFF<?xml version=\"1.0\" encoding=\"utf-16\"?>\r\n"
  ++ "<" ++ tag ++ ">\r\n"
  ++ concatStrings ((sortEntries d.strings).map (fun p => writeRecord p.2))
  ++ "</" ++ tag ++ ">\r\n"

/-! ## Reconciliation (`sync_strings`, source lines 294-339)

The pure core of `sync_strings`, taking the four loaded tables instead of
paths.  Python mutates shared `AionString` objects in place: the merged
dict's entry for `k` is the very object held by the variant dict (when `k`
is a variant key), else by the patch dict (when `k` is a patch key), else
by the reference dict.  A repair through that reference mutates the patch
table exactly when the merged entry came from the patch; the model makes
that write-back explicit. -/

structure SyncResult where
  l10n : AionStringDict     -- final merged translation dict
  patch : AionStringDict    -- final patch dict (persisted when `persistPatch`)
  output : AionStringDict   -- dict written to the output directory
  persistPatch : Bool       -- whether the patch file is (re)written
deriving Repr, DecidableEq

/-- `{**reference, **patch}` or `{**reference, **patch, **variant}`
(source lines 304-308). -/
def mergedL10n (ref patch : AionStringDict) (variant : Option AionStringDict) : List Entry :=
  match variant with
  | some v => dictMerge (dictMerge ref.strings patch.strings) v.strings
  | none => dictMerge ref.strings patch.strings

/-- The ids present in the merged translation but not in the client
(source line 314). -/
def syncOrphanKeys (client : AionStringDict) (l10n0 : List Entry) : List Int :=
  (l10n0.map (fun p => p.1)).filter (fun k => ¬ hasKey client.strings k)

/-- Popping every orphan key from a dict (source lines 318-319). -/
def popOrphans (ks : List Int) (d : List Entry) : List Entry :=
  d.filter (fun p => ¬ ks.contains p.1)

/-- Inserting every client record whose id the translation lacks into the
patch dict (source lines 322-325). -/
def fillMissing (client : AionStringDict) (l10nKeys : List Int) (d : List Entry) : List Entry :=
  (client.strings.filter (fun p => ¬ l10nKeys.contains p.1)).foldl
    (fun d2 p => dictInsert d2 p.1 p.2) d

/-- Whether the merged dict entry for `k` is the very object held by the
patch dict: `k` is a patch key and the variant overlay does not shadow it. -/
def syncRepairAliased (patch : AionStringDict) (variant : Option AionStringDict)
    (k : Int) : Bool :=
  hasKey patch.strings k &&
    (match variant with | some v => ! hasKey v.strings k | none => true)

/-- One candidate match (source lines 328-330) acting on the pair
(merged translation dict, patch dict).  A successful repair mutates the
shared object: the new value lands in the merged dict, and also in the
patch dict exactly when the merged entry is the patch object.  A failed
match inserts the client record into the patch dict. -/
def syncStep (client patch : AionStringDict) (variant : Option AionStringDict)
    (silent : Bool) (st : List Entry × List Entry) (k : Int) : List Entry × List Entry :=
  match dictLookup k client.strings, dictLookup k st.1 with
  | some c, some t =>
    if (c.match_and_repair t silent).1 then
      ( dictInsert st.1 k (c.match_and_repair t silent).2.1
      , if syncRepairAliased patch variant k then
          dictInsert st.2 k (c.match_and_repair t silent).2.1
        else st.2 )
    else
      (st.1, dictInsert st.2 k c)
  | _, _ => st

/-- The orphan / missing / candidate-match passes of `sync_strings`
(source lines 310-330), producing the final pair
(merged translation dict, patch dict). -/
def syncSt (client ref patch : AionStringDict)
    (variant : Option AionStringDict) (silent : Bool) : List Entry × List Entry :=
  let l10n0 := mergedL10n ref patch variant
  let clientKeys := client.strings.map (fun p => p.1)
  let l10nKeys := l10n0.map (fun p => p.1)
  let orphans := syncOrphanKeys client l10n0
  let l10n1 := popOrphans orphans l10n0
  let patch1 := popOrphans orphans patch.strings
  let patch2 := fillMissing client l10nKeys patch1
  let interKeys := clientKeys.filter (fun k => l10nKeys.contains k)
  interKeys.foldl (syncStep client patch variant silent) (l10n1, patch2)

def sync_strings (client ref patch : AionStringDict)
    (variant : Option AionStringDict) (silent : Bool) : SyncResult :=
  let st := syncSt client ref patch variant silent
  -- persistence (source lines 332-335) and output (source lines 338-339)
  { l10n := ⟨st.1⟩
    patch := ⟨st.2⟩
    output := ⟨dictMerge st.1 st.2⟩
    persistPatch := variant.isNone && ¬ st.2.isEmpty }

/-! ## Dictionary lemmas -/

/-- Python dict invariant: at most one entry per key. -/
abbrev NodupKeys (d : List Entry) : Prop := (d.map (fun p => p.1)).Nodup

theorem dictLookup_insert (d : List Entry) (k k1 : Int) (v : AionString) :
    dictLookup k (dictInsert d k1 v) = if k1 = k then some v else dictLookup k d := by
  induction d with
  | nil => simp [dictInsert, dictLookup]
  | cons p t ih =>
    obtain ⟨k2, v2⟩ := p
    simp only [dictInsert, dictLookup]
    split_ifs with h1 h2 h3 h4 h5 <;>
      simp_all [dictLookup, dictInsert, ih]

theorem hasKey_iff_mem {d : List Entry} {k : Int} :
    hasKey d k = true ↔ k ∈ d.map (fun p => p.1) := by
  induction d with
  | nil => simp [hasKey, dictLookup]
  | cons p t ih =>
    simp only [hasKey, dictLookup, List.map_cons, List.mem_cons]
    split_ifs with h1
    · simp [h1.symm]
    · rw [← hasKey]
      rw [ih]
      constructor
      · exact fun h => Or.inr h
      · rintro (h | h)
        · exact absurd h.symm h1
        · exact h

theorem dictLookup_eq_none {d : List Entry} {k : Int} :
    dictLookup k d = none ↔ k ∉ d.map (fun p => p.1) := by
  induction d with
  | nil => simp [dictLookup]
  | cons p t ih =>
    obtain ⟨k2, v2⟩ := p
    simp only [dictLookup, List.map_cons, List.mem_cons]
    split_ifs with h1
    · subst h1; simp
    · rw [ih]
      constructor
      · rintro h (he | hm)
        · exact h1 he.symm
        · exact h hm
      · intro h hm
        exact h (Or.inr hm)

theorem hasKey_eq_false {d : List Entry} {k : Int} :
    hasKey d k = false ↔ k ∉ d.map (fun p => p.1) := by
  rw [← dictLookup_eq_none]
  unfold hasKey
  cases dictLookup k d <;> simp

theorem mem_keys_insert {d : List Entry} {k k1 : Int} {v : AionString} :
    k1 ∈ (dictInsert d k v).map (fun p => p.1) ↔ k1 = k ∨ k1 ∈ d.map (fun p => p.1) := by
  induction d with
  | nil => simp [dictInsert]
  | cons p t ih =>
    obtain ⟨k2, v2⟩ := p
    simp only [dictInsert]
    split_ifs with h1
    · subst h1; simp
    · simp [ih]; tauto

theorem nodupKeys_insert {d : List Entry} {k : Int} {v : AionString}
    (h : NodupKeys d) : NodupKeys (dictInsert d k v) := by
  induction d with
  | nil => simp [NodupKeys, dictInsert]
  | cons p t ih =>
    obtain ⟨k2, v2⟩ := p
    simp only [NodupKeys, List.map_cons, List.nodup_cons] at h
    simp only [dictInsert]
    split_ifs with h1
    · subst h1
      simp only [NodupKeys, List.map_cons, List.nodup_cons]
      exact h
    · simp only [NodupKeys, List.map_cons, List.nodup_cons]
      refine ⟨fun hm => ?_, ih h.2⟩
      rw [mem_keys_insert] at hm
      rcases hm with he | hm
      · exact h1 he
      · exact h.1 hm

theorem dictLookup_merge_of_hasKey_eq_false {a b : List Entry} {k : Int}
    (h : hasKey b k = false) : dictLookup k (dictMerge a b) = dictLookup k a := by
  rw [hasKey_eq_false] at h
  induction b generalizing a with
  | nil => simp [dictMerge]
  | cons p t ih =>
    obtain ⟨k2, v2⟩ := p
    simp only [List.map_cons, List.mem_cons] at h
    push_neg at h
    have : dictMerge a ((k2, v2) :: t) = dictMerge (dictInsert a k2 v2) t := rfl
    rw [this, ih (fun hm => h.2 hm), dictLookup_insert]
    rw [if_neg (fun he => h.1 he.symm)]

theorem dictLookup_merge_of_mem {a b : List Entry} {k : Int} {v : AionString}
    (hb : NodupKeys b) (h : dictLookup k b = some v) :
    dictLookup k (dictMerge a b) = some v := by
  induction b generalizing a with
  | nil => simp [dictLookup] at h
  | cons p t ih =>
    obtain ⟨k2, v2⟩ := p
    simp only [NodupKeys, List.map_cons, List.nodup_cons] at hb
    have hmg : dictMerge a ((k2, v2) :: t) = dictMerge (dictInsert a k2 v2) t := rfl
    simp only [dictLookup] at h
    rw [hmg]
    split_ifs at h with h1
    · subst h1
      obtain rfl : v2 = v := Option.some.injEq .. ▸ h
      rw [dictLookup_merge_of_hasKey_eq_false (hasKey_eq_false.2 hb.1)]
      rw [dictLookup_insert, if_pos rfl]
    · exact ih hb.2 h

theorem nodupKeys_merge {a b : List Entry} (ha : NodupKeys a) :
    NodupKeys (dictMerge a b) := by
  induction b generalizing a with
  | nil => exact ha
  | cons p t ih =>
    have : dictMerge a (p :: t) = dictMerge (dictInsert a p.1 p.2) t := rfl
    rw [this]
    exact ih (nodupKeys_insert ha)

theorem dictLookup_filter_pos {d : List Entry} {k : Int}
    (q : Entry → Bool) (hq : ∀ v, q (k, v) = true) :
    dictLookup k (d.filter q) = dictLookup k d := by
  induction d with
  | nil => simp [dictLookup]
  | cons p t ih =>
    obtain ⟨k2, v2⟩ := p
    by_cases h1 : k2 = k
    · subst h1
      rw [List.filter_cons, if_pos (by simp [hq v2])]
      simp [dictLookup, ih]
    · rw [List.filter_cons]
      split_ifs with h2
      · simp only [dictLookup, if_neg h1]
        exact ih
      · simp only [dictLookup, if_neg h1]
        exact ih

theorem dictLookup_filter_neg {d : List Entry} {k : Int}
    (q : Entry → Bool) (hq : ∀ v, q (k, v) = false) :
    dictLookup k (d.filter q) = none := by
  induction d with
  | nil => simp [dictLookup]
  | cons p t ih =>
    obtain ⟨k2, v2⟩ := p
    by_cases h1 : k2 = k
    · subst h1
      rw [List.filter_cons, if_neg (by simp [hq v2])]
      exact ih
    · rw [List.filter_cons]
      split_ifs with h2
      · simp only [dictLookup, if_neg h1]
        exact ih
      · exact ih

theorem nodupKeys_filter {d : List Entry} (q : Entry → Bool)
    (h : NodupKeys d) : NodupKeys (d.filter q) := by
  unfold NodupKeys at h ⊢
  exact (List.Sublist.map (fun p => p.1) d.filter_sublist).nodup h

theorem dictLookup_foldl_insert_notmem {l d0 : List Entry} {k : Int}
    (h : ∀ p ∈ l, p.1 ≠ k) :
    dictLookup k (l.foldl (fun d p => dictInsert d p.1 p.2) d0) = dictLookup k d0 := by
  induction l generalizing d0 with
  | nil => rfl
  | cons p t ih =>
    simp only [List.foldl_cons]
    rw [ih (fun q hq => h q (List.mem_cons_of_mem p hq))]
    rw [dictLookup_insert, if_neg (h p (List.mem_cons_self p t))]

theorem dictLookup_foldl_insert_mem {l d0 : List Entry} {k : Int} {v : AionString}
    (hnd : NodupKeys l) (h : dictLookup k l = some v) :
    dictLookup k (l.foldl (fun d p => dictInsert d p.1 p.2) d0) = some v := by
  induction l generalizing d0 with
  | nil => simp [dictLookup] at h
  | cons p t ih =>
    obtain ⟨k2, v2⟩ := p
    simp only [NodupKeys, List.map_cons, List.nodup_cons] at hnd
    simp only [dictLookup] at h
    simp only [List.foldl_cons]
    split_ifs at h with h1
    · subst h1
      obtain rfl : v2 = v := by injection h
      rw [dictLookup_foldl_insert_notmem]
      · rw [dictLookup_insert, if_pos rfl]
      · intro q hq he
        exact hnd.1 (he ▸ List.mem_map_of_mem (fun p => p.1) hq)
    · exact ih hnd.2 h

/-- The observable effect of one `syncStep` on the entry for its own key,
as a function of the previous lookups. -/
def syncStepAtK (client patch : AionStringDict) (variant : Option AionStringDict)
    (silent : Bool) (k : Int) (tl pl : Option AionString) :
    Option AionString × Option AionString :=
  match dictLookup k client.strings, tl with
  | some c, some t =>
    if (c.match_and_repair t silent).1 then
      ( some (c.match_and_repair t silent).2.1
      , if syncRepairAliased patch variant k then
          some (c.match_and_repair t silent).2.1
        else pl )
    else (some t, some c)
  | _, tl2 => (tl2, pl)

theorem syncStep_lookup_ne {client patch : AionStringDict}
    {variant : Option AionStringDict} {silent : Bool}
    {st : List Entry × List Entry} {k k1 : Int} (h : k ≠ k1) :
    dictLookup k1 (syncStep client patch variant silent st k).1 = dictLookup k1 st.1 ∧
    dictLookup k1 (syncStep client patch variant silent st k).2 = dictLookup k1 st.2 := by
  cases hc : dictLookup k client.strings with
  | none => simp [syncStep, hc]
  | some c =>
    cases ht : dictLookup k st.1 with
    | none => simp [syncStep, hc, ht]
    | some t =>
      by_cases h1 : (c.match_and_repair t silent).1
      · by_cases h2 : syncRepairAliased patch variant k
        · simp [syncStep, hc, ht, h1, h2, dictLookup_insert, h]
        · simp [syncStep, hc, ht, h1, h2, dictLookup_insert, h]
      · simp [syncStep, hc, ht, h1, dictLookup_insert, h]

theorem syncStep_lookup_self (client patch : AionStringDict)
    (variant : Option AionStringDict) (silent : Bool)
    (st : List Entry × List Entry) (k : Int) :
    (dictLookup k (syncStep client patch variant silent st k).1,
     dictLookup k (syncStep client patch variant silent st k).2) =
      syncStepAtK client patch variant silent k
        (dictLookup k st.1) (dictLookup k st.2) := by
  cases hc : dictLookup k client.strings with
  | none => simp [syncStep, syncStepAtK, hc]
  | some c =>
    cases ht : dictLookup k st.1 with
    | none => simp [syncStep, syncStepAtK, hc, ht]
    | some t =>
      by_cases h1 : (c.match_and_repair t silent).1
      · by_cases h2 : syncRepairAliased patch variant k
        · simp [syncStep, syncStepAtK, hc, ht, h1, h2, dictLookup_insert]
        · simp [syncStep, syncStepAtK, hc, ht, h1, h2, dictLookup_insert]
      · simp [syncStep, syncStepAtK, hc, ht, h1, dictLookup_insert]

theorem syncFold_lookup_notmem {client patch : AionStringDict}
    {variant : Option AionStringDict} {silent : Bool}
    {ks : List Int} {st : List Entry × List Entry} {k1 : Int} (h : k1 ∉ ks) :
    dictLookup k1 (ks.foldl (syncStep client patch variant silent) st).1 =
      dictLookup k1 st.1 ∧
    dictLookup k1 (ks.foldl (syncStep client patch variant silent) st).2 =
      dictLookup k1 st.2 := by
  induction ks generalizing st with
  | nil => exact ⟨rfl, rfl⟩
  | cons a t ih =>
    simp only [List.mem_cons] at h
    push_neg at h
    simp only [List.foldl_cons]
    have hne := @syncStep_lookup_ne client patch variant silent st a k1
      (fun he => h.1 he.symm)
    have hrec := @ih (syncStep client patch variant silent st a) h.2
    exact ⟨hrec.1.trans hne.1, hrec.2.trans hne.2⟩

theorem syncFold_lookup_mem {client patch : AionStringDict}
    {variant : Option AionStringDict} {silent : Bool}
    {ks : List Int} {st : List Entry × List Entry} {k : Int}
    (hnd : ks.Nodup) (hk : k ∈ ks) :
    (dictLookup k (ks.foldl (syncStep client patch variant silent) st).1,
     dictLookup k (ks.foldl (syncStep client patch variant silent) st).2) =
      syncStepAtK client patch variant silent k
        (dictLookup k st.1) (dictLookup k st.2) := by
  induction ks generalizing st with
  | nil => exact absurd hk (List.not_mem_nil k)
  | cons a t ih =>
    simp only [List.nodup_cons] at hnd
    simp only [List.foldl_cons]
    by_cases ha : a = k
    · subst ha
      have hnot := @syncFold_lookup_notmem client patch variant silent t
        (syncStep client patch variant silent st a) a hnd.1
      rw [Prod.mk.injEq]
      refine ⟨hnot.1.trans ?_, hnot.2.trans ?_⟩ <;>
        have := syncStep_lookup_self client patch variant silent st a
      · exact congrArg Prod.fst this
      · exact congrArg Prod.snd this
    · rcases List.mem_cons.1 hk with he | hm
      · exact absurd he.symm ha
      · have hne := @syncStep_lookup_ne client patch variant silent st a k ha
        rw [ih hnd.2 hm, hne.1, hne.2]

/-! ## `match_and_repair` lemmas -/

/-- The body a successful `match_and_repair` leaves on the translation:
cleared when the client has none and the translation a non-empty one,
otherwise unchanged. -/
def mrBody (cb tb : Option String) : Option String :=
  if cb = none ∧ tb ≠ none ∧ tb ≠ some "" then none else tb

theorem match_and_repair_eq {c t : AionString} {s : Bool}
    (h1 : c.id_value = t.id_value) (h2 : c.name = t.name) :
    c.match_and_repair t s = (true, repairedRecord c t, repairLogs c t s) := by
  unfold AionString.match_and_repair
  rw [if_neg (by simp [h1]), if_neg (by simp [h2])]

theorem repairedRecord_eq (c t : AionString) :
    repairedRecord c t =
      { t with message_type := c.message_type, display_type := c.display_type,
               ment := c.ment, rank := c.rank, body := mrBody c.body t.body } := by
  unfold repairedRecord mrBody
  cases c with | mk ctag cid cname cbody cmt cdt cment crank =>
  cases t with | mk ttag tid tname tbody tmt tdt tment trank =>
  simp only
  split_ifs <;> simp_all

theorem match_and_repair_record {c t : AionString} {s : Bool}
    (h1 : c.id_value = t.id_value) (h2 : c.name = t.name) :
    (c.match_and_repair t s).2.1 =
      { t with message_type := c.message_type, display_type := c.display_type,
               ment := c.ment, rank := c.rank, body := mrBody c.body t.body } := by
  rw [match_and_repair_eq h1 h2]
  exact repairedRecord_eq c t

theorem match_and_repair_name_mismatch {c t : AionString} {s : Bool}
    (h : c.name ≠ t.name) :
    (c.match_and_repair t s).1 = false ∧ (c.match_and_repair t s).2.1 = t := by
  unfold AionString.match_and_repair
  by_cases h1 : c.id_value = t.id_value
  · rw [if_neg (by simp [h1]), if_pos h]
    exact ⟨rfl, rfl⟩
  · rw [if_pos h1]
    exact ⟨rfl, rfl⟩

/-! ## Stage lemmas for `sync_strings` -/

theorem dictLookup_mem_keys {d : List Entry} {k : Int} {v : AionString}
    (h : dictLookup k d = some v) : k ∈ d.map (fun p => p.1) := by
  by_contra hm
  rw [← dictLookup_eq_none] at hm
  rw [h] at hm
  exact Option.noConfusion hm

theorem dictLookup_filter_none {d : List Entry} {k : Int} (q : Entry → Bool)
    (h : dictLookup k d = none) : dictLookup k (d.filter q) = none := by
  rw [dictLookup_eq_none] at h ⊢
  intro hm
  exact h ((List.Sublist.map (fun p => p.1) (d.filter_sublist)).mem hm)

theorem mem_syncOrphanKeys {client : AionStringDict} {l10n0 : List Entry} {k : Int} :
    k ∈ syncOrphanKeys client l10n0 ↔
      k ∈ l10n0.map (fun p => p.1) ∧ hasKey client.strings k = false := by
  unfold syncOrphanKeys
  rw [List.mem_filter]
  simp

theorem dictLookup_popOrphans_notmem {ks : List Int} {d : List Entry} {k : Int}
    (h : k ∉ ks) : dictLookup k (popOrphans ks d) = dictLookup k d := by
  unfold popOrphans
  exact dictLookup_filter_pos _ (fun v => by simp [h])

theorem dictLookup_popOrphans_mem {ks : List Int} {d : List Entry} {k : Int}
    (h : k ∈ ks) : dictLookup k (popOrphans ks d) = none := by
  unfold popOrphans
  exact dictLookup_filter_neg _ (fun v => by simp [h])

theorem dictLookup_fillMissing_mem {client : AionStringDict} {l10nKeys : List Int}
    {d : List Entry} {k : Int} (h : k ∈ l10nKeys) :
    dictLookup k (fillMissing client l10nKeys d) = dictLookup k d := by
  unfold fillMissing
  apply dictLookup_foldl_insert_notmem
  intro p hp he
  rw [List.mem_filter] at hp
  rw [he] at hp
  simp [h] at hp

theorem dictLookup_fillMissing_client {client : AionStringDict} {l10nKeys : List Int}
    {d : List Entry} {k : Int} {c : AionString}
    (hcN : NodupKeys client.strings)
    (hk : k ∉ l10nKeys) (hck : dictLookup k client.strings = some c) :
    dictLookup k (fillMissing client l10nKeys d) = some c := by
  unfold fillMissing
  apply dictLookup_foldl_insert_mem (nodupKeys_filter _ hcN)
  rw [dictLookup_filter_pos _ (fun v => by simp [hk])]
  exact hck

theorem dictLookup_fillMissing_nonclient {client : AionStringDict}
    {l10nKeys : List Int} {d : List Entry} {k : Int}
    (hck : dictLookup k client.strings = none) :
    dictLookup k (fillMissing client l10nKeys d) = dictLookup k d := by
  unfold fillMissing
  apply dictLookup_foldl_insert_notmem
  intro p hp he
  rw [List.mem_filter] at hp
  rw [dictLookup_eq_none] at hck
  exact hck (he ▸ List.mem_map_of_mem (fun p => p.1) hp.1)

theorem nodupKeys_foldl_insert {l d : List Entry} (h : NodupKeys d) :
    NodupKeys (l.foldl (fun d2 p => dictInsert d2 p.1 p.2) d) := by
  induction l generalizing d with
  | nil => exact h
  | cons p t ih => exact ih (nodupKeys_insert h)

theorem syncStep_nodup {client patch : AionStringDict}
    {variant : Option AionStringDict} {silent : Bool}
    {st : List Entry × List Entry} {k : Int}
    (h1 : NodupKeys st.1) (h2 : NodupKeys st.2) :
    NodupKeys (syncStep client patch variant silent st k).1 ∧
    NodupKeys (syncStep client patch variant silent st k).2 := by
  unfold syncStep
  cases hc : dictLookup k client.strings with
  | none => exact ⟨h1, h2⟩
  | some c =>
    cases ht : dictLookup k st.1 with
    | none => exact ⟨h1, h2⟩
    | some t =>
      by_cases hf : (c.match_and_repair t silent).1
      · by_cases ha : syncRepairAliased patch variant k
        · simp only [if_pos hf, if_pos ha]
          exact ⟨nodupKeys_insert h1, nodupKeys_insert h2⟩
        · simp only [if_pos hf, if_neg ha]
          exact ⟨nodupKeys_insert h1, h2⟩
      · simp only [if_neg hf]
        exact ⟨h1, nodupKeys_insert h2⟩

theorem syncFold_nodup {client patch : AionStringDict}
    {variant : Option AionStringDict} {silent : Bool}
    {ks : List Int} {st : List Entry × List Entry}
    (h1 : NodupKeys st.1) (h2 : NodupKeys st.2) :
    NodupKeys (ks.foldl (syncStep client patch variant silent) st).1 ∧
    NodupKeys (ks.foldl (syncStep client patch variant silent) st).2 := by
  induction ks generalizing st with
  | nil => exact ⟨h1, h2⟩
  | cons a t ih =>
    simp only [List.foldl_cons]
    have hstep := @syncStep_nodup client patch variant silent st a h1 h2
    exact ih hstep.1 hstep.2

/-- Any id in both the client and the merged translation reaches the
candidate-match pass, whose effect on that id is `syncStepAtK` applied to
the merged record and the original patch entry. -/
theorem syncSt_inter {client ref patch : AionStringDict}
    {variant : Option AionStringDict} {silent : Bool} {k : Int} {c t : AionString}
    (hcN : NodupKeys client.strings)
    (hck : dictLookup k client.strings = some c)
    (hlk : dictLookup k (mergedL10n ref patch variant) = some t) :
    (dictLookup k (syncSt client ref patch variant silent).1,
     dictLookup k (syncSt client ref patch variant silent).2)
      = syncStepAtK client patch variant silent k (some t)
          (dictLookup k patch.strings) := by
  have hkc : k ∈ client.strings.map (fun p => p.1) := dictLookup_mem_keys hck
  have hkl : k ∈ (mergedL10n ref patch variant).map (fun p => p.1) :=
    dictLookup_mem_keys hlk
  have hhk : hasKey client.strings k = true := hasKey_iff_mem.2 hkc
  have hno : k ∉ syncOrphanKeys client (mergedL10n ref patch variant) := by
    rw [mem_syncOrphanKeys]
    rintro ⟨-, hf⟩
    rw [hhk] at hf
    exact Bool.noConfusion hf
  have hmemInter : k ∈ (client.strings.map (fun p => p.1)).filter
      (fun k2 => ((mergedL10n ref patch variant).map (fun p => p.1)).contains k2) := by
    rw [List.mem_filter]
    exact ⟨hkc, by simp [hkl]⟩
  have hndInter : ((client.strings.map (fun p => p.1)).filter
      (fun k2 => ((mergedL10n ref patch variant).map (fun p => p.1)).contains k2)).Nodup :=
    hcN.filter _
  have hfold := @syncFold_lookup_mem client patch variant silent
    ((client.strings.map (fun p => p.1)).filter
      (fun k2 => ((mergedL10n ref patch variant).map (fun p => p.1)).contains k2))
    (popOrphans (syncOrphanKeys client (mergedL10n ref patch variant))
        (mergedL10n ref patch variant),
      fillMissing client ((mergedL10n ref patch variant).map (fun p => p.1))
        (popOrphans (syncOrphanKeys client (mergedL10n ref patch variant))
          patch.strings))
    k hndInter hmemInter
  have hl1 : dictLookup k (popOrphans (syncOrphanKeys client (mergedL10n ref patch variant))
      (mergedL10n ref patch variant)) = some t :=
    (dictLookup_popOrphans_notmem hno).trans hlk
  have hp2 : dictLookup k (fillMissing client
      ((mergedL10n ref patch variant).map (fun p => p.1))
      (popOrphans (syncOrphanKeys client (mergedL10n ref patch variant)) patch.strings))
      = dictLookup k patch.strings :=
    (dictLookup_fillMissing_mem hkl).trans (dictLookup_popOrphans_notmem hno)
  rw [show ((popOrphans (syncOrphanKeys client (mergedL10n ref patch variant))
      (mergedL10n ref patch variant),
      fillMissing client ((mergedL10n ref patch variant).map (fun p => p.1))
        (popOrphans (syncOrphanKeys client (mergedL10n ref patch variant))
          patch.strings)) : List Entry × List Entry).1
      = popOrphans (syncOrphanKeys client (mergedL10n ref patch variant))
          (mergedL10n ref patch variant) from rfl] at hfold
  rw [hl1] at hfold
  rw [show ((popOrphans (syncOrphanKeys client (mergedL10n ref patch variant))
      (mergedL10n ref patch variant),
      fillMissing client ((mergedL10n ref patch variant).map (fun p => p.1))
        (popOrphans (syncOrphanKeys client (mergedL10n ref patch variant))
          patch.strings)) : List Entry × List Entry).2
      = fillMissing client ((mergedL10n ref patch variant).map (fun p => p.1))
          (popOrphans (syncOrphanKeys client (mergedL10n ref patch variant))
            patch.strings) from rfl] at hfold
  rw [hp2] at hfold
  unfold syncSt
  exact hfold

/-- A matched pair (same id, same name): the merged dict carries the
repaired record; the patch dict carries it too when the record is the
patch object, otherwise the patch entry is untouched. -/
theorem syncSt_matched {client ref patch : AionStringDict}
    {variant : Option AionStringDict} {silent : Bool} {k : Int} {c t : AionString}
    (hcN : NodupKeys client.strings)
    (hck : dictLookup k client.strings = some c)
    (hlk : dictLookup k (mergedL10n ref patch variant) = some t)
    (hid : c.id_value = t.id_value) (hname : c.name = t.name) :
    dictLookup k (syncSt client ref patch variant silent).1
      = some (repairedRecord c t) ∧
    dictLookup k (syncSt client ref patch variant silent).2
      = (if syncRepairAliased patch variant k then some (repairedRecord c t)
         else dictLookup k patch.strings) := by
  have hfold := @syncSt_inter client ref patch variant silent k c t hcN hck hlk
  unfold syncStepAtK at hfold
  rw [hck] at hfold
  simp only [match_and_repair_eq hid hname, if_true] at hfold
  exact ⟨congrArg Prod.fst hfold, congrArg Prod.snd hfold⟩

/-- An identity mismatch (same id key, different name or record id): the
match fails, the merged dict keeps the translation record, and the patch
dict receives the client record verbatim. -/
theorem syncSt_mismatch {client ref patch : AionStringDict}
    {variant : Option AionStringDict} {silent : Bool} {k : Int} {c t : AionString}
    (hcN : NodupKeys client.strings)
    (hck : dictLookup k client.strings = some c)
    (hlk : dictLookup k (mergedL10n ref patch variant) = some t)
    (hflag : (c.match_and_repair t silent).1 = false) :
    dictLookup k (syncSt client ref patch variant silent).1 = some t ∧
    dictLookup k (syncSt client ref patch variant silent).2 = some c := by
  have hfold := @syncSt_inter client ref patch variant silent k c t hcN hck hlk
  unfold syncStepAtK at hfold
  rw [hck] at hfold
  simp only [hflag, Bool.false_eq_true, if_false] at hfold
  exact ⟨congrArg Prod.fst hfold, congrArg Prod.snd hfold⟩

theorem hasKey_eq_false_lookup {d : List Entry} {k : Int}
    (h : hasKey d k = false) : dictLookup k d = none :=
  dictLookup_eq_none.2 (hasKey_eq_false.1 h)

/-- A missing id (in the client, not in the merged translation): the
client record is inserted into the patch dict and the merged dict still
lacks the id. -/
theorem syncSt_missing {client ref patch : AionStringDict}
    {variant : Option AionStringDict} {silent : Bool} {k : Int} {c : AionString}
    (hcN : NodupKeys client.strings)
    (hck : dictLookup k client.strings = some c)
    (hlk : hasKey (mergedL10n ref patch variant) k = false) :
    dictLookup k (syncSt client ref patch variant silent).1 = none ∧
    dictLookup k (syncSt client ref patch variant silent).2 = some c := by
  have hkl : k ∉ (mergedL10n ref patch variant).map (fun p => p.1) :=
    hasKey_eq_false.1 hlk
  have hnotInter : k ∉ (client.strings.map (fun p => p.1)).filter
      (fun k2 => ((mergedL10n ref patch variant).map (fun p => p.1)).contains k2) := by
    intro hm
    rw [List.mem_filter] at hm
    exact hkl (by simpa using hm.2)
  have hfold := @syncFold_lookup_notmem client patch variant silent
    ((client.strings.map (fun p => p.1)).filter
      (fun k2 => ((mergedL10n ref patch variant).map (fun p => p.1)).contains k2))
    (popOrphans (syncOrphanKeys client (mergedL10n ref patch variant))
        (mergedL10n ref patch variant),
      fillMissing client ((mergedL10n ref patch variant).map (fun p => p.1))
        (popOrphans (syncOrphanKeys client (mergedL10n ref patch variant))
          patch.strings))
    k hnotInter
  unfold syncSt
  refine ⟨hfold.1.trans ?_, hfold.2.trans ?_⟩
  · exact dictLookup_filter_none _ (hasKey_eq_false_lookup hlk)
  · exact dictLookup_fillMissing_client hcN hkl hck

/-- An orphaned id (in the merged translation, not in the client): the id
is removed from both dicts. -/
theorem syncSt_orphan {client ref patch : AionStringDict}
    {variant : Option AionStringDict} {silent : Bool} {k : Int}
    (hkl : k ∈ (mergedL10n ref patch variant).map (fun p => p.1))
    (hck : hasKey client.strings k = false) :
    dictLookup k (syncSt client ref patch variant silent).1 = none ∧
    dictLookup k (syncSt client ref patch variant silent).2 = none := by
  have horph : k ∈ syncOrphanKeys client (mergedL10n ref patch variant) :=
    mem_syncOrphanKeys.2 ⟨hkl, hck⟩
  have hkc : k ∉ client.strings.map (fun p => p.1) := hasKey_eq_false.1 hck
  have hnotInter : k ∉ (client.strings.map (fun p => p.1)).filter
      (fun k2 => ((mergedL10n ref patch variant).map (fun p => p.1)).contains k2) := by
    intro hm
    rw [List.mem_filter] at hm
    exact hkc hm.1
  have hfold := @syncFold_lookup_notmem client patch variant silent
    ((client.strings.map (fun p => p.1)).filter
      (fun k2 => ((mergedL10n ref patch variant).map (fun p => p.1)).contains k2))
    (popOrphans (syncOrphanKeys client (mergedL10n ref patch variant))
        (mergedL10n ref patch variant),
      fillMissing client ((mergedL10n ref patch variant).map (fun p => p.1))
        (popOrphans (syncOrphanKeys client (mergedL10n ref patch variant))
          patch.strings))
    k hnotInter
  unfold syncSt
  refine ⟨hfold.1.trans ?_, hfold.2.trans ?_⟩
  · exact dictLookup_popOrphans_mem horph
  · rw [dictLookup_fillMissing_nonclient (dictLookup_eq_none.2 hkc)]
    exact dictLookup_popOrphans_mem horph

theorem nodupKeys_mergedL10n {ref patch : AionStringDict}
    {variant : Option AionStringDict} (hr : NodupKeys ref.strings) :
    NodupKeys (mergedL10n ref patch variant) := by
  unfold mergedL10n
  cases variant with
  | none => exact nodupKeys_merge hr
  | some v => exact nodupKeys_merge (nodupKeys_merge hr)

theorem syncSt_nodup {client ref patch : AionStringDict}
    {variant : Option AionStringDict} {silent : Bool}
    (hr : NodupKeys ref.strings) (hp : NodupKeys patch.strings) :
    NodupKeys (syncSt client ref patch variant silent).1 ∧
    NodupKeys (syncSt client ref patch variant silent).2 := by
  unfold syncSt
  apply syncFold_nodup
  · exact nodupKeys_filter _ (nodupKeys_mergedL10n hr)
  · exact nodupKeys_foldl_insert (nodupKeys_filter _ hp)

theorem sync_output_lookup {client ref patch : AionStringDict}
    {variant : Option AionStringDict} {silent : Bool} {k : Int}
    (hp : NodupKeys (syncSt client ref patch variant silent).2) :
    dictLookup k (sync_strings client ref patch variant silent).output.strings =
      (match dictLookup k (syncSt client ref patch variant silent).2 with
       | some v => some v
       | none => dictLookup k (syncSt client ref patch variant silent).1) := by
  cases h : dictLookup k (syncSt client ref patch variant silent).2 with
  | none =>
    exact dictLookup_merge_of_hasKey_eq_false (by unfold hasKey; rw [h]; rfl)
  | some v =>
    exact dictLookup_merge_of_mem hp h

/-! ## Claim theorems: reconciliation -/

theorem dictLookup_ne_nil_isEmpty {d : List Entry} {k : Int} {v : AionString}
    (h : dictLookup k d = some v) : d.isEmpty = false := by
  cases d with
  | nil => simp [dictLookup] at h
  | cons a t => rfl

/-- C3 (confirmed).  Client-wins on identity mismatch: when the client
record's name differs from the merged translation record's name for a
shared id, `match_and_repair` returns false leaving the translation
record untouched, the client record is inserted verbatim into the updated
patch dict, and the output record for that id is exactly the client
record. -/
theorem C3_client_wins {client ref patch : AionStringDict}
    {variant : Option AionStringDict} {silent : Bool} {k : Int} {c t : AionString}
    (hcN : NodupKeys client.strings) (hrN : NodupKeys ref.strings)
    (hpN : NodupKeys patch.strings)
    (hck : dictLookup k client.strings = some c)
    (hlk : dictLookup k (mergedL10n ref patch variant) = some t)
    (hname : c.name ≠ t.name) :
    (c.match_and_repair t silent).1 = false ∧
    (c.match_and_repair t silent).2.1 = t ∧
    dictLookup k (sync_strings client ref patch variant silent).patch.strings = some c ∧
    dictLookup k (sync_strings client ref patch variant silent).output.strings = some c := by
  have hmr := match_and_repair_name_mismatch (s := silent) hname
  have hmm := @syncSt_mismatch client ref patch variant silent k c t hcN hck hlk hmr.1
  have hout := @sync_output_lookup client ref patch variant silent k
    (@syncSt_nodup client ref patch variant silent hrN hpN).2
  rw [hmm.2] at hout
  exact ⟨hmr.1, hmr.2, hmm.2, hout.trans rfl⟩

def wAlpha : AionString := ⟨"string", 1, "Alpha", none, none, none, none, none⟩

def wBeta : AionString := ⟨"string", 1, "Beta", none, none, none, none, none⟩

def wAlphaDict : AionStringDict := ⟨[(1, wAlpha)]⟩

def wBetaDict : AionStringDict := ⟨[(1, wBeta)]⟩

theorem C3_client_wins_witness :
    dictLookup 1 wAlphaDict.strings = some wAlpha ∧
    dictLookup 1 (mergedL10n wBetaDict ⟨[]⟩ none) = some wBeta ∧
    wAlpha.name ≠ wBeta.name ∧
    dictLookup 1 (sync_strings wAlphaDict wBetaDict ⟨[]⟩ none false).output.strings
      = some wAlpha :=
  ⟨by decide, by decide, by decide,
    (@C3_client_wins wAlphaDict wBetaDict ⟨[]⟩ none false 1 wAlpha wBeta
      (by decide) (by decide) (by decide) (by decide) (by decide)
      (by decide)).2.2.2⟩

/-! ### C2: repair convergence -/

def c2client : AionString := ⟨"string", 1, "n", none, some "A", none, none, none⟩

def c2patchRec : AionString := ⟨"string", 1, "n", none, some "P", none, none, none⟩

def c2variantRec : AionString := ⟨"string", 1, "n", none, some "V", none, none, none⟩

/-- C2 counterexample.  With a variant overlay, an id present in both the
patch and the variant refutes the claim: the merged translation entry is
the variant record, which is repaired in place, but the output takes the
patch record — whose repairable fields were never touched.  Here the
client has `message_type = "A"`, the patch `"P"`, the variant `"V"`; the
claim demands `"A"` in the output, the code produces `"P"`. -/
theorem C2_counterexample :
    dictLookup 1 (AionStringDict.mk [(1, c2client)]).strings = some c2client ∧
    dictLookup 1 (mergedL10n ⟨[]⟩ ⟨[(1, c2patchRec)]⟩ (some ⟨[(1, c2variantRec)]⟩))
      = some c2variantRec ∧
    c2client.id_value = c2variantRec.id_value ∧
    c2client.name = c2variantRec.name ∧
    ¬ ((dictLookup 1 (sync_strings ⟨[(1, c2client)]⟩ ⟨[]⟩ ⟨[(1, c2patchRec)]⟩
          (some ⟨[(1, c2variantRec)]⟩) false).output.strings).map
        (fun o => o.message_type) = some c2client.message_type) := by
  decide

/-- C2 (amended).  Repair convergence: for a shared id with equal record
ids and names, the output record carries the client's `message_type`,
`display_type`, `ment` and `rank` — provided the id is not present in
both the patch dict and the variant overlay (in that remaining case the
repaired variant entry is shadowed in the output by the untouched patch
entry, as the counterexample shows). -/
theorem C2_repair_convergence {client ref patch : AionStringDict}
    {variant : Option AionStringDict} {silent : Bool} {k : Int} {c t : AionString}
    (hcN : NodupKeys client.strings) (hrN : NodupKeys ref.strings)
    (hpN : NodupKeys patch.strings)
    (hck : dictLookup k client.strings = some c)
    (hlk : dictLookup k (mergedL10n ref patch variant) = some t)
    (hid : c.id_value = t.id_value) (hname : c.name = t.name)
    (hshadow : variant = none ∨ hasKey patch.strings k = false ∨
      (∃ v, variant = some v ∧ hasKey v.strings k = false)) :
    ∃ o, dictLookup k (sync_strings client ref patch variant silent).output.strings
        = some o ∧
      o.message_type = c.message_type ∧ o.display_type = c.display_type ∧
      o.ment = c.ment ∧ o.rank = c.rank := by
  have hm := @syncSt_matched client ref patch variant silent k c t hcN hck hlk hid hname
  have hout := @sync_output_lookup client ref patch variant silent k
    (@syncSt_nodup client ref patch variant silent hrN hpN).2
  have hfields : (repairedRecord c t).message_type = c.message_type ∧
      (repairedRecord c t).display_type = c.display_type ∧
      (repairedRecord c t).ment = c.ment ∧ (repairedRecord c t).rank = c.rank := by
    rw [repairedRecord_eq]
    exact ⟨rfl, rfl, rfl, rfl⟩
  by_cases ha : syncRepairAliased patch variant k
  · rw [hm.2, if_pos ha] at hout
    exact ⟨repairedRecord c t, hout.trans rfl, hfields.1, hfields.2.1,
      hfields.2.2.1, hfields.2.2.2⟩
  · have hpk : hasKey patch.strings k = false := by
      rcases hshadow with hv | h | ⟨v, hv, hkv⟩
      · by_contra hc2
        rw [Bool.not_eq_false] at hc2
        exact ha (by simp [syncRepairAliased, hv, hc2])
      · exact h
      · by_contra hc2
        rw [Bool.not_eq_false] at hc2
        exact ha (by simp [syncRepairAliased, hv, hc2, hkv])
    rw [hm.2, if_neg ha, hasKey_eq_false_lookup hpk] at hout
    rw [hm.1] at hout
    exact ⟨repairedRecord c t, hout.trans rfl, hfields.1, hfields.2.1,
      hfields.2.2.1, hfields.2.2.2⟩

theorem C2_repair_convergence_witness :
    dictLookup 1 wAlphaDict.strings = some wAlpha ∧
    dictLookup 1 (mergedL10n ⟨[(1, ⟨"string", 1, "Alpha", none, some "B", none,
        none, none⟩)]⟩ ⟨[]⟩ none)
      = some ⟨"string", 1, "Alpha", none, some "B", none, none, none⟩ ∧
    (∃ o, dictLookup 1 (sync_strings wAlphaDict
          ⟨[(1, ⟨"string", 1, "Alpha", none, some "B", none, none, none⟩)]⟩
          ⟨[]⟩ none false).output.strings = some o ∧
      o.message_type = wAlpha.message_type ∧ o.display_type = wAlpha.display_type ∧
      o.ment = wAlpha.ment ∧ o.rank = wAlpha.rank) :=
  ⟨by decide, by decide,
    @C2_repair_convergence wAlphaDict
      ⟨[(1, ⟨"string", 1, "Alpha", none, some "B", none, none, none⟩)]⟩
      ⟨[]⟩ none false 1 wAlpha
      ⟨"string", 1, "Alpha", none, some "B", none, none, none⟩
      (by decide) (by decide) (by decide) (by decide) (by decide)
      (by decide) (by decide) (Or.inl rfl)⟩

/-- C4 (confirmed).  Missing-translation fill: an id in the client but not
in the merged translation ends up, as the client's record verbatim, in
both the updated patch dict and the output dict. -/
theorem C4_missing_fill {client ref patch : AionStringDict}
    {variant : Option AionStringDict} {silent : Bool} {k : Int} {c : AionString}
    (hcN : NodupKeys client.strings) (hrN : NodupKeys ref.strings)
    (hpN : NodupKeys patch.strings)
    (hck : dictLookup k client.strings = some c)
    (hlk : hasKey (mergedL10n ref patch variant) k = false) :
    dictLookup k (sync_strings client ref patch variant silent).patch.strings
      = some c ∧
    dictLookup k (sync_strings client ref patch variant silent).output.strings
      = some c := by
  have hm := @syncSt_missing client ref patch variant silent k c hcN hck hlk
  have hout := @sync_output_lookup client ref patch variant silent k
    (@syncSt_nodup client ref patch variant silent hrN hpN).2
  rw [hm.2] at hout
  exact ⟨hm.2, hout.trans rfl⟩

theorem C4_missing_fill_witness :
    dictLookup 5 (AionStringDict.mk [(5, wAlpha)]).strings = some wAlpha ∧
    hasKey (mergedL10n ⟨[]⟩ ⟨[]⟩ none) 5 = false ∧
    dictLookup 5 (sync_strings ⟨[(5, wAlpha)]⟩ ⟨[]⟩ ⟨[]⟩ none false).patch.strings
      = some wAlpha ∧
    dictLookup 5 (sync_strings ⟨[(5, wAlpha)]⟩ ⟨[]⟩ ⟨[]⟩ none false).output.strings
      = some wAlpha := by
  refine ⟨by decide, by decide, ?_, ?_⟩
  · exact (@C4_missing_fill ⟨[(5, wAlpha)]⟩ ⟨[]⟩ ⟨[]⟩ none false 5 wAlpha
      (by decide) (by decide) (by decide) (by decide) (by decide)).1
  · exact (@C4_missing_fill ⟨[(5, wAlpha)]⟩ ⟨[]⟩ ⟨[]⟩ none false 5 wAlpha
      (by decide) (by decide) (by decide) (by decide) (by decide)).2

/-- C5 (confirmed).  Orphan removal: an id in the merged translation but
not in the client is absent from the output dict and from the updated
patch dict. -/
theorem C5_orphan_removal {client ref patch : AionStringDict}
    {variant : Option AionStringDict} {silent : Bool} {k : Int}
    (hrN : NodupKeys ref.strings) (hpN : NodupKeys patch.strings)
    (hkl : hasKey (mergedL10n ref patch variant) k = true)
    (hck : hasKey client.strings k = false) :
    dictLookup k (sync_strings client ref patch variant silent).output.strings
      = none ∧
    dictLookup k (sync_strings client ref patch variant silent).patch.strings
      = none := by
  have hm := @syncSt_orphan client ref patch variant silent k
    (hasKey_iff_mem.1 hkl) hck
  have hout := @sync_output_lookup client ref patch variant silent k
    (@syncSt_nodup client ref patch variant silent hrN hpN).2
  rw [hm.2] at hout
  rw [hm.1] at hout
  exact ⟨hout.trans rfl, hm.2⟩

theorem C5_orphan_removal_witness :
    hasKey (mergedL10n wBetaDict ⟨[]⟩ none) 1 = true ∧
    hasKey (AionStringDict.mk []).strings 1 = false ∧
    dictLookup 1 (sync_strings ⟨[]⟩ wBetaDict ⟨[]⟩ none false).output.strings = none ∧
    dictLookup 1 (sync_strings ⟨[]⟩ wBetaDict ⟨[]⟩ none false).patch.strings = none := by
  refine ⟨by decide, by decide, ?_, ?_⟩
  · exact (@C5_orphan_removal ⟨[]⟩ wBetaDict ⟨[]⟩ none false 1
      (by decide) (by decide) (by decide) (by decide)).1
  · exact (@C5_orphan_removal ⟨[]⟩ wBetaDict ⟨[]⟩ none false 1
      (by decide) (by decide) (by decide) (by decide)).2

/-- C10 (confirmed).  Repairs alias into the patch: with no variant
overlay, for an id in both the client and the patch with equal record ids
and names, the merged entry IS the patch object, so the in-place repairs
land in the patch dict even though nothing is re-inserted; the persisted
patch record carries the client's `message_type`, `display_type`, `ment`
and `rank` while keeping the patch record's identity fields, and the
patch file is indeed written. -/
theorem C10_patch_aliasing {client ref patch : AionStringDict}
    {silent : Bool} {k : Int} {c p : AionString}
    (hcN : NodupKeys client.strings) (hpN : NodupKeys patch.strings)
    (hck : dictLookup k client.strings = some c)
    (hpk : dictLookup k patch.strings = some p)
    (hid : c.id_value = p.id_value) (hname : c.name = p.name) :
    (sync_strings client ref patch none silent).persistPatch = true ∧
    ∃ o, dictLookup k (sync_strings client ref patch none silent).patch.strings
        = some o ∧
      o.message_type = c.message_type ∧ o.display_type = c.display_type ∧
      o.ment = c.ment ∧ o.rank = c.rank ∧
      o.tag_name = p.tag_name ∧ o.name = p.name ∧ o.id_value = p.id_value := by
  have hlk : dictLookup k (mergedL10n ref patch none) = some p := by
    unfold mergedL10n
    exact dictLookup_merge_of_mem hpN hpk
  have haliased : syncRepairAliased patch none k = true := by
    simp [syncRepairAliased, hasKey, hpk]
  have hm := @syncSt_matched client ref patch none silent k c p hcN hck hlk hid hname
  have hpatch3 : dictLookup k (syncSt client ref patch none silent).2
      = some (repairedRecord c p) := by
    rw [hm.2, if_pos haliased]
  have hfields := repairedRecord_eq c p
  refine ⟨?_, repairedRecord c p, hpatch3, ?_, ?_, ?_, ?_, ?_, ?_, ?_⟩
  · show (Option.isNone (none : Option AionStringDict)
      && ¬ (syncSt client ref patch none silent).2.isEmpty) = true
    rw [dictLookup_ne_nil_isEmpty hpatch3]
    rfl
  all_goals rw [hfields]

theorem C10_patch_aliasing_witness :
    dictLookup 1 wAlphaDict.strings = some wAlpha ∧
    dictLookup 1 (AionStringDict.mk
        [(1, ⟨"string", 1, "Alpha", none, some "Old", none, none, some 7⟩)]).strings
      = some ⟨"string", 1, "Alpha", none, some "Old", none, none, some 7⟩ ∧
    (sync_strings wAlphaDict ⟨[]⟩
        ⟨[(1, ⟨"string", 1, "Alpha", none, some "Old", none, none, some 7⟩)]⟩
        none false).persistPatch = true ∧
    (∃ o, dictLookup 1 (sync_strings wAlphaDict ⟨[]⟩
          ⟨[(1, ⟨"string", 1, "Alpha", none, some "Old", none, none, some 7⟩)]⟩
          none false).patch.strings = some o ∧
      o.message_type = wAlpha.message_type ∧ o.display_type = wAlpha.display_type ∧
      o.ment = wAlpha.ment ∧ o.rank = wAlpha.rank ∧
      o.tag_name = "string" ∧ o.name = "Alpha" ∧ o.id_value = 1) := by
  have h := @C10_patch_aliasing wAlphaDict ⟨[]⟩
    ⟨[(1, ⟨"string", 1, "Alpha", none, some "Old", none, none, some 7⟩)]⟩
    false 1 wAlpha
    ⟨"string", 1, "Alpha", none, some "Old", none, none, some 7⟩
    (by decide) (by decide) (by decide) (by decide) (by decide) (by decide)
  exact ⟨by decide, by decide, h.1, h.2⟩

/-- C8 (confirmed).  Patch persistence rule: the updated patch dict is
written back if and only if it is non-empty and no variant overlay was
supplied; in particular a variant run never touches the patch directory.
The reconciliation itself (`syncSt`) is the same computation in both
modes, only this flag differs. -/
theorem C8_patch_persistence (client ref patch : AionStringDict)
    (variant : Option AionStringDict) (silent : Bool) :
    ((sync_strings client ref patch variant silent).persistPatch = true ↔
      (variant = none ∧
        (sync_strings client ref patch variant silent).patch.strings ≠ [])) ∧
    (∀ v, variant = some v →
      (sync_strings client ref patch variant silent).persistPatch = false) := by
  constructor
  · show (variant.isNone && ¬ (syncSt client ref patch variant silent).2.isEmpty)
        = true ↔ _
    cases variant with
    | none =>
      simp only [Option.isNone_none, Bool.true_and, true_and]
      cases hst : (syncSt client ref patch none silent).2 with
      | nil => simp [show (sync_strings client ref patch none silent).patch.strings
          = (syncSt client ref patch none silent).2 from rfl, hst]
      | cons a t => simp [show (sync_strings client ref patch none silent).patch.strings
          = (syncSt client ref patch none silent).2 from rfl, hst]
    | some v =>
      simp
  · rintro v rfl
    rfl

/-! ### C7: body consistency -/

/-- With both bodies present the body pass only compares the two
expression-token sets, and only into the log. -/
theorem repairLogs_expr_iff {c t : AionString} {s : Bool} {cb tb : String}
    (hcb : c.body = some cb) (htb : t.body = some tb) (hs : s = false) :
    (LogEvent.bodyExprMismatch ∈ repairLogs c t s ↔
      ¬ sameTokenSet (findallExpr cb.data) (findallExpr tb.data)) := by
  subst hs
  unfold repairLogs
  rw [hcb, htb]
  rw [if_neg (show ¬((some cb : Option String) = none ∧
      (some tb : Option String) ≠ none ∧ some tb ≠ some "") by simp)]
  rw [if_neg (show ¬((some cb : Option String) ≠ none ∧ some cb ≠ some "" ∧
      (some tb : Option String) = none) by simp)]
  split_ifs <;> simp_all [List.mem_append]

def c7client : AionString := ⟨"string", 1, "n", some "", none, none, none, none⟩

def c7l10n : AionString := ⟨"string", 1, "n", some "x", none, none, none, none⟩

/-- C7 counterexample.  The claim treats an *empty* client body like an
absent one; the code tests `self.body is None` only.  With a client body
`some ""` and a non-empty translation body, the translation body is left
as is, not cleared to none as the claim demands. -/
theorem C7_counterexample :
    c7client.body = some "" ∧ c7l10n.body = some "x" ∧
    (c7client.match_and_repair c7l10n false).2.1.body = some "x" ∧
    ¬ ((c7client.match_and_repair c7l10n false).2.1.body = none) := by
  decide

/-- C7 (amended).  Body consistency for a pair with equal id and name:
the match always succeeds; an *absent* (`none`) client body with a
non-empty translation body clears the translation body; a non-empty
client body with an absent translation body changes nothing; with both
bodies present (the empty-string client body included) both bodies are
kept verbatim and only the expression-token sets are compared, solely
into the log (`warn` exactly when the token sets differ, in a non-silent
run). -/
theorem C7_body_consistency {c t : AionString} {s : Bool}
    (hid : c.id_value = t.id_value) (hname : c.name = t.name) :
    (c.match_and_repair t s).1 = true ∧
    (c.body = none → ∀ b, t.body = some b → b ≠ "" →
      (c.match_and_repair t s).2.1.body = none) ∧
    (∀ b, c.body = some b → b ≠ "" → t.body = none →
      (c.match_and_repair t s).2.1.body = none) ∧
    (∀ b1 b2, c.body = some b1 → t.body = some b2 →
      (c.match_and_repair t s).2.1.body = some b2) ∧
    (∀ b1 b2, c.body = some b1 → t.body = some b2 → s = false →
      (LogEvent.bodyExprMismatch ∈ (c.match_and_repair t s).2.2 ↔
        ¬ sameTokenSet (findallExpr b1.data) (findallExpr b2.data))) := by
  have heq := match_and_repair_eq (s := s) hid hname
  have hrec := repairedRecord_eq c t
  refine ⟨by rw [heq], ?_, ?_, ?_, ?_⟩
  · intro hcb b htb hb
    rw [heq]
    show (repairedRecord c t).body = none
    rw [hrec]
    show mrBody c.body t.body = none
    rw [mrBody, if_pos ⟨hcb, by rw [htb]; simp [hb]⟩]
  · intro b hcb hb htb
    rw [heq]
    show (repairedRecord c t).body = none
    rw [hrec]
    show mrBody c.body t.body = none
    rw [mrBody, if_neg (by rw [hcb]; simp), htb]
  · intro b1 b2 hcb htb
    rw [heq]
    show (repairedRecord c t).body = some b2
    rw [hrec]
    show mrBody c.body t.body = some b2
    rw [mrBody, if_neg (by rw [hcb]; simp), htb]
  · intro b1 b2 hcb htb hs
    rw [heq]
    exact repairLogs_expr_iff hcb htb hs

theorem C7_body_consistency_witness :
    (⟨"string", 2, "m", none, none, none, none, none⟩ : AionString).body = none ∧
    (⟨"string", 2, "m", some "hi", none, none, none, none⟩ : AionString).body
      = some "hi" ∧
    ((⟨"string", 2, "m", none, none, none, none, none⟩ : AionString).match_and_repair
        ⟨"string", 2, "m", some "hi", none, none, none, none⟩ false).2.1.body = none :=
  ⟨by decide, by decide,
    (C7_body_consistency (c := ⟨"string", 2, "m", none, none, none, none, none⟩)
      (t := ⟨"string", 2, "m", some "hi", none, none, none, none⟩) (s := false)
      (by decide) (by decide)).2.1 (by decide) "hi" (by decide) (by decide)⟩

/-! ### C6: truncated input -/

/-- C6 counterexample.  On input truncated before the root closing tag the
parser indeed yields no result (`ok none`), but the loading caller does
not produce an empty table: it evaluates `None.children` and raises. -/
theorem C6_counterexample :
    parseAionXml "<?x?><strings>" = .ok none ∧
    AionStringDict.read "<?x?><strings>"
      = .error "AttributeError: NoneType object has no attribute children" ∧
    ¬ (AionStringDict.read "<?x?><strings>" = .ok ⟨[]⟩) := by
  refine ⟨rfl, rfl, fun h => ?_⟩
  rw [show AionStringDict.read "<?x?><strings>"
      = .error "AttributeError: NoneType object has no attribute children" from rfl] at h
  exact Except.noConfusion h

/-- C6 (amended).  For every input whose state machine consumes all
characters without either returning the root or raising — i.e. the input
ends before the root element's closing tag is consumed — `parseAionXml`
yields no element and no error (`ok none`), and the table-loading caller
then fails with an attribute error on the missing result, rather than
succeeding with an empty table. -/
theorem C6_truncated_input (content : String)
    (h : (runM (.running initCfg) (stripBOM content).data).isRunning = true) :
    parseAionXml (stripBOM content) = .ok none ∧
    AionStringDict.read content
      = .error "AttributeError: NoneType object has no attribute children" := by
  have hp : parseAionXml (stripBOM content) = .ok none := by
    unfold parseAionXml
    cases hr : runM (.running initCfg) (stripBOM content).data with
    | running cfg => rfl
    | finished r =>
      rw [hr] at h
      exact absurd h (by simp [MachineState.isRunning])
    | failed m =>
      rw [hr] at h
      exact absurd h (by simp [MachineState.isRunning])
  refine ⟨hp, ?_⟩
  unfold AionStringDict.read
  rw [hp]

theorem C6_truncated_input_witness :
    (runM (.running initCfg) (stripBOM "<?x?><strings>").data).isRunning = true ∧
    parseAionXml (stripBOM "<?x?><strings>") = .ok none :=
  ⟨by decide, (C6_truncated_input "<?x?><strings>" (by decide)).1⟩

/-! ### C9: the worked example -/

def c9client : AionString := ⟨"string", 1, "Sword", none, some "A", none, none, some 2⟩

def c9ref : AionString := ⟨"string", 1, "Sword", some "[%1] dmg", some "B", none, none, some 2⟩

/-- C9 counterexample.  On the spec's worked example the patch table does
not gain any record (the match succeeds, so nothing is inserted; the
patch stays empty and is not persisted), and the output record's body is
`none` — the reference's body `"[%1] dmg"` is cleared because the client
has no body — not the claimed `"[%1] dmg"`. -/
theorem C9_counterexample :
    (sync_strings ⟨[(1, c9client)]⟩ ⟨[(1, c9ref)]⟩ ⟨[]⟩ none false).patch.strings
      = [] ∧
    (dictLookup 1 (sync_strings ⟨[(1, c9client)]⟩ ⟨[(1, c9ref)]⟩ ⟨[]⟩ none
        false).output.strings).map (fun o => o.body) = some none := by
  decide

/-- C9 (amended).  On the worked example the reconciliation repairs the
reference record in place: `message_type` becomes `"A"`, the body is
cleared (client absence wins), the patch table remains empty and is not
persisted, and the output record for id 1 is
`{id 1, name "Sword", message_type "A", rank 2, no body}`. -/
theorem C9_example :
    (sync_strings ⟨[(1, c9client)]⟩ ⟨[(1, c9ref)]⟩ ⟨[]⟩ none false).patch.strings
      = [] ∧
    (sync_strings ⟨[(1, c9client)]⟩ ⟨[(1, c9ref)]⟩ ⟨[]⟩ none false).persistPatch
      = false ∧
    dictLookup 1 (sync_strings ⟨[(1, c9client)]⟩ ⟨[(1, c9ref)]⟩ ⟨[]⟩ none
        false).output.strings
      = some ⟨"string", 1, "Sword", none, some "A", none, none, some 2⟩ := by
  decide

theorem C8_patch_persistence_witness :
    (sync_strings wAlphaDict wBetaDict ⟨[]⟩ (some ⟨[]⟩) false).persistPatch = false :=
  (C8_patch_persistence wAlphaDict wBetaDict ⟨[]⟩ (some ⟨[]⟩) false).2 ⟨[]⟩ rfl

/-! ## Numeral lemmas -/

theorem digitChar_isDigit (d : Nat) : (digitChar d).isDigit := by
  unfold digitChar
  split <;> decide

theorem charVal_digitChar {d : Nat} (h : d < 10) : charVal (digitChar d) = d := by
  interval_cases d <;> decide

theorem natToDigitsAux_fuel {fuel n : Nat} (h : n < 10 ^ (fuel + 1)) :
    natToDigitsAux (fuel + 1) n ≠ [] ∧
    (∀ c ∈ natToDigitsAux (fuel + 1) n, c.isDigit) ∧
    ∀ a, (natToDigitsAux (fuel + 1) n).foldl (fun a c => 10 * a + charVal c) a
      = a * 10 ^ (natToDigitsAux (fuel + 1) n).length + n := by
  induction fuel generalizing n with
  | zero =>
    rw [pow_one] at h
    rw [show natToDigitsAux 1 n = if n < 10 then [digitChar n]
      else natToDigitsAux 0 (n / 10) ++ [digitChar (n % 10)] from rfl]
    rw [if_pos h]
    refine ⟨by simp, ?_, ?_⟩
    · intro c hc
      rw [List.mem_singleton] at hc
      exact hc ▸ digitChar_isDigit n
    · intro a
      simp [charVal_digitChar h]
      omega
  | succ fuel ih =>
    rw [show natToDigitsAux (fuel + 1 + 1) n = if n < 10 then [digitChar n]
      else natToDigitsAux (fuel + 1) (n / 10) ++ [digitChar (n % 10)] from rfl]
    split_ifs with h10
    · refine ⟨by simp, ?_, ?_⟩
      · intro c hc
        rw [List.mem_singleton] at hc
        exact hc ▸ digitChar_isDigit n
      · intro a
        simp [charVal_digitChar h10]
        omega
    · have hdiv : n / 10 < 10 ^ (fuel + 1) := by
        rw [Nat.div_lt_iff_lt_mul (by omega)]
        calc n < 10 ^ (fuel + 1 + 1) := h
        _ = 10 ^ (fuel + 1) * 10 := by rw [pow_succ]
      obtain ⟨hne, hdig, hfold⟩ := ih hdiv
      refine ⟨by simp, ?_, ?_⟩
      · intro c hc
        rcases List.mem_append.1 hc with hm | hm
        · exact hdig c hm
        · rw [List.mem_singleton] at hm
          exact hm ▸ digitChar_isDigit (n % 10)
      · intro a
        rw [List.foldl_append, List.length_append]
        rw [hfold a]
        simp only [List.foldl_cons, List.foldl_nil, List.length_singleton]
        rw [charVal_digitChar (Nat.mod_lt n (by omega))]
        rw [pow_succ]
        have := Nat.div_add_mod n 10
        ring_nf
        omega

theorem nat_lt_ten_pow_succ (n : Nat) : n < 10 ^ (n + 1) := by
  calc n < 2 ^ n * 1 := by
        rw [Nat.mul_one]
        exact Nat.lt_two_pow n
  _ ≤ 10 ^ n * 10 := Nat.mul_le_mul (Nat.pow_le_pow_left (by omega) n) (by omega)
  _ = 10 ^ (n + 1) := (pow_succ 10 n).symm

theorem natToDigits_ne_nil (n : Nat) : natToDigits n ≠ [] := by
  cases n with
  | zero => decide
  | succ m =>
    exact (natToDigitsAux_fuel (nat_lt_ten_pow_succ (m + 1))).1

theorem natToDigits_digits (n : Nat) : ∀ c ∈ natToDigits n, c.isDigit :=
  (natToDigitsAux_fuel (nat_lt_ten_pow_succ n)).2.1

theorem foldl_natToDigits (n : Nat) :
    ∀ a, (natToDigits n).foldl (fun a c => 10 * a + charVal c) a
      = a * 10 ^ (natToDigits n).length + n :=
  (natToDigitsAux_fuel (nat_lt_ten_pow_succ n)).2.2

theorem digitsVal_natToDigits (n : Nat) : digitsVal (natToDigits n) = some n := by
  unfold digitsVal
  rw [if_pos ⟨natToDigits_ne_nil n, natToDigits_digits n⟩]
  rw [foldl_natToDigits n 0]
  simp

theorem isDigit_ne_minus {c : Char} (h : c.isDigit) : c ≠ '-' := by
  intro he
  rw [he] at h
  exact Bool.noConfusion h

theorem isDigit_ne_plus {c : Char} (h : c.isDigit) : c ≠ '+' := by
  intro he
  rw [he] at h
  exact Bool.noConfusion h

theorem isDigit_ne_lt {c : Char} (h : c.isDigit) : c ≠ '<' := by
  intro he
  rw [he] at h
  exact Bool.noConfusion h

theorem pyInt_mk_cons (c : Char) (rest : List Char) :
    pyInt (String.mk (c :: rest)) =
      (if c = '-' then (digitsVal rest).map (fun n => -(n : Int))
       else if c = '+' then (digitsVal rest).map (fun n => (n : Int))
       else (digitsVal (c :: rest)).map (fun n => (n : Int))) := rfl

theorem pyInt_intToDecimal (i : Int) : pyInt (intToDecimal i) = some i := by
  unfold intToDecimal
  split_ifs with h
  · rw [pyInt_mk_cons, if_pos rfl, digitsVal_natToDigits]
    simp only [Option.map_eq_some']
    refine ⟨i.natAbs, rfl, ?_⟩
    omega
  · cases hd : natToDigits i.natAbs with
    | nil => exact absurd hd (natToDigits_ne_nil _)
    | cons c rest =>
      have hdig : c.isDigit := natToDigits_digits _ c (by
        rw [hd]
        exact List.mem_cons_self ..)
      rw [pyInt_mk_cons]
      rw [if_neg (isDigit_ne_minus hdig), if_neg (isDigit_ne_plus hdig)]
      rw [← hd, digitsVal_natToDigits]
      simp only [Option.map_eq_some']
      refine ⟨i.natAbs, rfl, ?_⟩
      omega

theorem intToDecimal_no_lt (i : Int) : ∀ c ∈ (intToDecimal i).data, c ≠ '<' := by
  unfold intToDecimal
  split_ifs with h
  · intro c hc
    simp only [String.mk] at hc
    rcases List.mem_cons.1 hc with rfl | hm
    · decide
    · exact isDigit_ne_lt (natToDigits_digits _ c hm)
  · intro c hc
    simp only [String.mk] at hc
    exact isDigit_ne_lt (natToDigits_digits _ c hc)

/-! ## Parser run lemmas -/

theorem runM_nil (m : MachineState) : runM m [] = m := rfl

theorem runM_cons (m : MachineState) (c : Char) (cs : List Char) :
    runM m (c :: cs) = runM (stepM m c) cs := rfl

theorem runM_append (m : MachineState) (a b : List Char) :
    runM m (a ++ b) = runM (runM m a) b := by
  unfold runM
  rw [List.foldl_append]

theorem runM_finished (r : XMLElement) (cs : List Char) :
    runM (.finished r) cs = .finished r := by
  induction cs with
  | nil => rfl
  | cons c t ih => exact ih

theorem stepM_running (cfg : ParserCfg) (c : Char) :
    stepM (.running cfg) c = stepChar cfg c := rfl

theorem stepChar_text (S : List XMLElement) (cur : Option XMLElement)
    (tn : List Char) (TS : List (List Char)) (b : List Char) (c : Char) :
    stepChar ⟨.text, S, cur, tn, TS, b⟩ c =
      if c = '<' then .running ⟨.unknownTag, S, cur, tn, TS, b⟩
      else .running ⟨.text, S, cur, tn, TS, b ++ [c]⟩ := rfl

theorem stepChar_beforeRoot (S : List XMLElement) (cur : Option XMLElement)
    (tn : List Char) (TS : List (List Char)) (b : List Char) (c : Char) :
    stepChar ⟨.beforeRoot, S, cur, tn, TS, b⟩ c =
      if c = '<' then .running ⟨.unknownTag, S, cur, tn, TS, b⟩
      else .running ⟨.beforeRoot, S, cur, tn, TS, b⟩ := rfl

theorem stepChar_unknownTag (S : List XMLElement) (cur : Option XMLElement)
    (tn : List Char) (TS : List (List Char)) (b : List Char) (c : Char) :
    stepChar ⟨.unknownTag, S, cur, tn, TS, b⟩ c =
      if c = '/' then .running ⟨.endTag, S, cur, tn, TS, b⟩
      else .running ⟨.beginTag, S, cur, tn ++ [c], TS, b⟩ := rfl

theorem stepChar_beginTag (S : List XMLElement) (cur : Option XMLElement)
    (tn : List Char) (TS : List (List Char)) (b : List Char) (c : Char) :
    stepChar ⟨.beginTag, S, cur, tn, TS, b⟩ c =
      if c = '>' then commitElement ⟨.beginTag, S, cur, tn, TS, b⟩
      else if c = ' ' then .running ⟨.beginTagAttributes, S, cur, tn, TS, b⟩
      else .running ⟨.beginTag, S, cur, tn ++ [c], TS, b⟩ := rfl

theorem stepChar_endTag (S : List XMLElement) (cur : Option XMLElement)
    (tn : List Char) (TS : List (List Char)) (b : List Char) (c : Char) :
    stepChar ⟨.endTag, S, cur, tn, TS, b⟩ c =
      if c = '>' then closeElement ⟨.endTag, S, cur, tn, TS, b⟩
      else .running ⟨.endTag, S, cur, tn ++ [c], TS, b⟩ := rfl

/-- A tag body the serializer may emit and the parser scans back intact:
non-empty, not starting with `/`, and free of `>` and space. -/
abbrev ValidTagChars (t : List Char) : Prop :=
  t ≠ [] ∧ t.head? ≠ some '/' ∧ ∀ c ∈ t, c ≠ '>' ∧ c ≠ ' '

theorem runM_text {S : List XMLElement} {cur : Option XMLElement}
    {tn : List Char} {TS : List (List Char)} {b : List Char}
    {w : List Char} (hw : ∀ c ∈ w, c ≠ '<') :
    runM (.running ⟨.text, S, cur, tn, TS, b⟩) w =
      .running ⟨.text, S, cur, tn, TS, b ++ w⟩ := by
  induction w generalizing b with
  | nil => rw [runM_nil, List.append_nil]
  | cons c rest ih =>
    rw [runM_cons, stepM_running, stepChar_text,
      if_neg (hw c (List.mem_cons_self ..)),
      ih (fun c2 h2 => hw c2 (List.mem_cons_of_mem c h2)),
      List.append_assoc]
    rfl

theorem runM_beginTagAcc {S : List XMLElement} {cur : Option XMLElement}
    {tn : List Char} {TS : List (List Char)} {b : List Char}
    {w : List Char} (hw : ∀ c ∈ w, c ≠ '>' ∧ c ≠ ' ') :
    runM (.running ⟨.beginTag, S, cur, tn, TS, b⟩) w =
      .running ⟨.beginTag, S, cur, tn ++ w, TS, b⟩ := by
  induction w generalizing tn with
  | nil => rw [runM_nil, List.append_nil]
  | cons c rest ih =>
    rw [runM_cons, stepM_running, stepChar_beginTag,
      if_neg (hw c (List.mem_cons_self ..)).1,
      if_neg (hw c (List.mem_cons_self ..)).2,
      ih (fun c2 h2 => hw c2 (List.mem_cons_of_mem c h2)),
      List.append_assoc]
    rfl

theorem runM_endTagAcc {S : List XMLElement} {cur : Option XMLElement}
    {tn : List Char} {TS : List (List Char)} {b : List Char}
    {w : List Char} (hw : ∀ c ∈ w, c ≠ '>') :
    runM (.running ⟨.endTag, S, cur, tn, TS, b⟩) w =
      .running ⟨.endTag, S, cur, tn ++ w, TS, b⟩ := by
  induction w generalizing tn with
  | nil => rw [runM_nil, List.append_nil]
  | cons c rest ih =>
    rw [runM_cons, stepM_running, stepChar_endTag,
      if_neg (hw c (List.mem_cons_self ..)),
      ih (fun c2 h2 => hw c2 (List.mem_cons_of_mem c h2)),
      List.append_assoc]
    rfl

theorem runM_openTag {S : List XMLElement} {cur : Option XMLElement}
    {TS : List (List Char)} {b : List Char} {t : List Char} (ht : ValidTagChars t) :
    runM (.running ⟨.text, S, cur, [], TS, b⟩) ('<' :: t ++ ['>']) =
      .running ⟨.text,
        (match cur with | some e => e :: S | none => S),
        some ⟨String.mk t, "", []⟩, [], b :: TS, []⟩ := by
  obtain ⟨c0, rest, rfl⟩ : ∃ c0 rest, t = c0 :: rest := by
    cases t with
    | nil => exact absurd rfl ht.1
    | cons a b2 => exact ⟨a, b2, rfl⟩
  have hc0 : c0 ≠ '/' := by
    intro he
    exact ht.2.1 (by rw [he]; rfl)
  rw [show (('<' :: c0 :: rest) ++ ['>']) = '<' :: c0 :: (rest ++ ['>']) from rfl]
  rw [runM_cons, stepM_running, stepChar_text, if_pos rfl]
  rw [runM_cons, stepM_running, stepChar_unknownTag, if_neg hc0]
  rw [runM_append]
  rw [runM_beginTagAcc (fun c hc => ht.2.2 c (List.mem_cons_of_mem c0 hc))]
  rw [runM_cons, stepM_running, stepChar_beginTag, if_pos rfl, runM_nil]
  simp only [List.nil_append]
  rfl

theorem runM_rootOpen {t : List Char} (ht : ValidTagChars t) :
    runM (.running ⟨.beforeRoot, [], none, [], [], []⟩) ('<' :: t ++ ['>']) =
      .running ⟨.text, [], some ⟨String.mk t, "", []⟩, [], [[]], []⟩ := by
  obtain ⟨c0, rest, rfl⟩ : ∃ c0 rest, t = c0 :: rest := by
    cases t with
    | nil => exact absurd rfl ht.1
    | cons a b2 => exact ⟨a, b2, rfl⟩
  have hc0 : c0 ≠ '/' := by
    intro he
    exact ht.2.1 (by rw [he]; rfl)
  rw [show (('<' :: c0 :: rest) ++ ['>']) = '<' :: c0 :: (rest ++ ['>']) from rfl]
  rw [runM_cons, stepM_running, stepChar_beforeRoot, if_pos rfl]
  rw [runM_cons, stepM_running, stepChar_unknownTag, if_neg hc0]
  rw [runM_append]
  rw [runM_beginTagAcc (fun c hc => ht.2.2 c (List.mem_cons_of_mem c0 hc))]
  rw [runM_cons, stepM_running, stepChar_beginTag, if_pos rfl, runM_nil]
  simp only [List.nil_append]
  rfl

theorem runM_closeTag {S : List XMLElement} {cur : Option XMLElement}
    {TS : List (List Char)} {b : List Char} {t : List Char}
    (ht : ∀ c ∈ t, c ≠ '>') :
    runM (.running ⟨.text, S, cur, [], TS, b⟩) ('<' :: '/' :: t ++ ['>']) =
      closeElement ⟨.endTag, S, cur, t, TS, b⟩ := by
  rw [show (('<' :: '/' :: t) ++ ['>']) = '<' :: '/' :: (t ++ ['>']) from rfl]
  rw [runM_cons, stepM_running, stepChar_text, if_pos rfl]
  rw [runM_cons, stepM_running, stepChar_unknownTag, if_pos rfl]
  rw [runM_append]
  rw [runM_endTagAcc ht]
  rw [runM_cons, stepM_running, stepChar_endTag, if_pos rfl, runM_nil]
  simp only [List.nil_append]

theorem closeElement_some (S : List XMLElement) (cur : XMLElement) (t : List Char)
    (TS : List (List Char)) (b : List Char) :
    closeElement ⟨.endTag, S, some cur, t, TS, b⟩ =
      (if String.mk t ≠ cur.name then
        .failed ("Mismatching tag name: " ++ String.mk t)
       else
        match TS with
        | [] => .failed "IndexError: pop from empty list"
        | prevText :: restTS =>
          match S with
          | [] => .finished { cur with text := String.mk b }
          | parent :: rest => .running ⟨.text, rest,
              some { parent with children :=
                parent.children ++ [{ cur with text := String.mk b }] },
              [], restTS, prevText⟩) := rfl

theorem closeElement_eq (S : List XMLElement) (cur : XMLElement) (t : List Char)
    (prev : List Char) (TS : List (List Char)) (b : List Char)
    (hname : cur.name = String.mk t) :
    closeElement ⟨.endTag, S, some cur, t, prev :: TS, b⟩ =
      (match S with
       | [] => .finished { cur with text := String.mk b }
       | parent :: rest => .running ⟨.text, rest,
           some { parent with children :=
             parent.children ++ [{ cur with text := String.mk b }] },
           [], TS, prev⟩) := by
  rw [closeElement_some]
  rw [if_neg (by rw [hname]; simp)]

theorem runM_leaf {S : List XMLElement} {cur : XMLElement}
    {TS : List (List Char)} {b : List Char}
    {t : List Char} (ht : ValidTagChars t) {w : List Char} (hw : ∀ c ∈ w, c ≠ '<') :
    runM (.running ⟨.text, S, some cur, [], TS, b⟩)
        (('<' :: t ++ ['>']) ++ w ++ ('<' :: '/' :: t ++ ['>'])) =
      .running ⟨.text, S,
        some { cur with children := cur.children ++ [⟨String.mk t, String.mk w, []⟩] },
        [], TS, b⟩ := by
  rw [show (('<' :: t ++ ['>']) ++ w ++ ('<' :: '/' :: t ++ ['>']))
      = ('<' :: t ++ ['>']) ++ (w ++ ('<' :: '/' :: t ++ ['>'])) from by
    rw [List.append_assoc]]
  rw [runM_append, runM_openTag ht, runM_append, runM_text hw,
    runM_closeTag (fun c hc => (ht.2.2 c hc).1)]
  rw [closeElement_eq _ _ _ _ _ _ rfl]
  simp only [List.nil_append]

/-! ## Running the parser over serialized output -/

theorem str_data_append (a b : String) : (a ++ b).data = a.data ++ b.data := rfl

/-- `XMLElement` is recursive, so structure eta is not definitional. -/
theorem XMLElement.eta (e : XMLElement) :
    (⟨e.name, e.text, e.children⟩ : XMLElement) = e := by
  cases e
  rfl

theorem fieldLine_data (f v : String) :
    (fieldLine (f, v)).data =
      [' ', ' ', ' ', ' '] ++ ((('<' :: f.data ++ ['>']) ++ v.data
        ++ ('<' :: '/' :: f.data ++ ['>'])) ++ ['\r', '\n']) := by
  simp only [fieldLine, str_data_append,
    show "    <".data = [' ', ' ', ' ', ' ', '<'] from rfl,
    show ">".data = ['>'] from rfl,
    show "</".data = ['<', '/'] from rfl,
    show ">\r\n".data = ['>', '\r', '\n'] from rfl,
    List.append_assoc, List.cons_append, List.nil_append]

theorem runM_fieldLine {S : List XMLElement} {cur : XMLElement}
    {TS : List (List Char)} {b : List Char} (f v : String)
    (hf : ValidTagChars f.data) (hv : ∀ c ∈ v.data, c ≠ '<') :
    runM (.running ⟨.text, S, some cur, [], TS, b⟩) (fieldLine (f, v)).data =
      .running ⟨.text, S, some { cur with children := cur.children ++ [⟨f, v, []⟩] },
        [], TS, b ++ [' ', ' ', ' ', ' ', '\r', '\n']⟩ := by
  rw [fieldLine_data]
  rw [runM_append, runM_text (by decide)]
  rw [runM_append, runM_leaf hf hv]
  rw [runM_text (by decide)]
  simp [List.append_assoc]

/-- The inter-element whitespace accumulated in a record element's own
text buffer: `"    "` before and `"\r\n"` after each of `n` field lines. -/
def fieldsJunk : Nat → List Char
  | 0 => []
  | n + 1 => [' ', ' ', ' ', ' ', '\r', '\n'] ++ fieldsJunk n

theorem runM_fieldLines {S : List XMLElement} {cur : XMLElement}
    {TS : List (List Char)} {b : List Char} (fs : List (String × String))
    (hfs : ∀ p ∈ fs, ValidTagChars p.1.data ∧ ∀ c ∈ p.2.data, c ≠ '<') :
    runM (.running ⟨.text, S, some cur, [], TS, b⟩)
        (concatStrings (fs.map fieldLine)).data =
      .running ⟨.text, S,
        some { cur with children := cur.children ++ fs.map (fun p => ⟨p.1, p.2, []⟩) },
        [], TS, b ++ fieldsJunk fs.length⟩ := by
  induction fs generalizing cur b with
  | nil =>
    rw [show concatStrings (([] : List (String × String)).map fieldLine) = "" from rfl]
    rw [show ("" : String).data = [] from rfl, runM_nil]
    simp only [List.map_nil, List.append_nil, fieldsJunk, XMLElement.eta]
  | cons p t ih =>
    obtain ⟨f, v⟩ := p
    rw [show concatStrings (((f, v) :: t).map fieldLine)
        = fieldLine (f, v) ++ concatStrings (t.map fieldLine) from rfl]
    rw [str_data_append, runM_append]
    rw [runM_fieldLine f v (hfs (f, v) (List.mem_cons_self ..)).1
      (hfs (f, v) (List.mem_cons_self ..)).2]
    rw [ih (fun p hp => hfs p (List.mem_cons_of_mem _ hp))]
    simp [fieldsJunk, List.append_assoc]

/-- The whitespace a record element's text buffer collects while its field
lines are parsed. -/
def recordJunk (n : Nat) : List Char := '\r' :: '\n' :: (fieldsJunk n ++ [' ', ' '])

/-- The element tree the parser rebuilds from one serialized record. -/
def recordElem (s : AionString) : XMLElement :=
  ⟨s.tag_name, String.mk (recordJunk (recordFields s).length),
   (recordFields s).map (fun p => ⟨p.1, p.2, []⟩)⟩

theorem writeRecord_data (s : AionString) :
    (writeRecord s).data =
      [' ', ' '] ++ (('<' :: s.tag_name.data ++ ['>'])
        ++ (['\r', '\n'] ++ ((concatStrings ((recordFields s).map fieldLine)).data
          ++ ([' ', ' '] ++ (('<' :: '/' :: s.tag_name.data ++ ['>'])
            ++ ['\r', '\n']))))) := by
  simp only [writeRecord, str_data_append,
    show "  <".data = [' ', ' ', '<'] from rfl,
    show ">\r\n".data = ['>', '\r', '\n'] from rfl,
    show "  </".data = [' ', ' ', '<', '/'] from rfl,
    List.append_assoc, List.cons_append, List.nil_append]

theorem runM_record {S : List XMLElement} {cur : XMLElement}
    {TS : List (List Char)} {b : List Char} (s : AionString)
    (htag : ValidTagChars s.tag_name.data)
    (hfs : ∀ p ∈ recordFields s, ValidTagChars p.1.data ∧ ∀ c ∈ p.2.data, c ≠ '<') :
    runM (.running ⟨.text, S, some cur, [], TS, b⟩) (writeRecord s).data =
      .running ⟨.text, S, some { cur with children := cur.children ++ [recordElem s] },
        [], TS, b ++ [' ', ' ', '\r', '\n']⟩ := by
  rw [writeRecord_data]
  rw [runM_append, runM_text (by decide)]
  rw [runM_append, runM_openTag htag]
  rw [runM_append, runM_text (by decide)]
  rw [runM_append, runM_fieldLines _ hfs]
  rw [runM_append, runM_text (by decide)]
  rw [runM_append, runM_closeTag (fun c hc => (htag.2.2 c hc).1)]
  rw [closeElement_eq _ _ _ _ _ _ rfl]
  rw [runM_text (by decide)]
  simp only [List.nil_append, List.append_assoc, XMLElement.eta]
  rfl

/-- The whitespace the root element's text buffer collects per record. -/
def recordsJunk : Nat → List Char
  | 0 => []
  | n + 1 => ' ' :: ' ' :: '\r' :: '\n' :: recordsJunk n

/-- Everything a record needs for its serialized form to parse back
intact. -/
def RecordValid (s : AionString) : Prop :=
  ValidTagChars s.tag_name.data ∧
  ∀ p ∈ recordFields s, ValidTagChars p.1.data ∧ ∀ c ∈ p.2.data, c ≠ '<'

theorem runM_records {S : List XMLElement} {cur : XMLElement}
    {TS : List (List Char)} {b : List Char} (entries : List Entry)
    (hval : ∀ p ∈ entries, RecordValid p.2) :
    runM (.running ⟨.text, S, some cur, [], TS, b⟩)
        (concatStrings (entries.map (fun p => writeRecord p.2))).data =
      .running ⟨.text, S,
        some { cur with children :=
          cur.children ++ entries.map (fun p => recordElem p.2) },
        [], TS, b ++ recordsJunk entries.length⟩ := by
  induction entries generalizing cur b with
  | nil =>
    rw [show concatStrings (([] : List Entry).map (fun p => writeRecord p.2))
        = "" from rfl]
    rw [show ("" : String).data = [] from rfl, runM_nil]
    simp only [List.map_nil, List.append_nil, recordsJunk, XMLElement.eta]
  | cons p t ih =>
    rw [show concatStrings ((p :: t).map (fun p => writeRecord p.2))
        = writeRecord p.2 ++ concatStrings (t.map (fun p => writeRecord p.2)) from rfl]
    rw [str_data_append, runM_append]
    rw [runM_record p.2 (hval p (List.mem_cons_self ..)).1
      (hval p (List.mem_cons_self ..)).2]
    rw [ih (fun q hq => hval q (List.mem_cons_of_mem _ hq))]
    simp only [List.map_cons, List.append_assoc, List.length_cons, recordsJunk]
    rfl

theorem stripBOM_cons {s : String} {rest : List Char}
    (h : s.data = '﻿' :: rest) : stripBOM s = String.mk rest := by
  unfold stripBOM
  rw [h]
  rfl

theorem write_strip_data (d : AionStringDict) (tag : String) :
    (stripBOM (d.write tag)).data =
      "<?xml version=\"1.0\" encoding=\"utf-16\"?>\r\n".data
      ++ (('<' :: tag.data ++ ['>'])
        ++ (['\r', '\n']
          ++ ((concatStrings ((sortEntries d.strings).map
                (fun p => writeRecord p.2))).data
            ++ (('<' :: '/' :: tag.data ++ ['>']) ++ ['\r', '\n'])))) := by
  have hdata : (d.write tag).data = '﻿' ::
      ("<?xml version=\"1.0\" encoding=\"utf-16\"?>\r\n".data
      ++ (('<' :: tag.data ++ ['>'])
        ++ (['\r', '\n']
          ++ ((concatStrings ((sortEntries d.strings).map
                (fun p => writeRecord p.2))).data
            ++ (('<' :: '/' :: tag.data ++ ['>']) ++ ['\r', '\n']))))) := by
    simp only [AionStringDict.write, str_data_append,
      show "﻿<?xml version=\"1.0\" encoding=\"utf-16\"?>\r\n".data
        = '﻿' :: "<?xml version=\"1.0\" encoding=\"utf-16\"?>\r\n".data from rfl,
      show "<".data = ['<'] from rfl,
      show ">\r\n".data = ['>', '\r', '\n'] from rfl,
      show "</".data = ['<', '/'] from rfl,
      List.append_assoc, List.cons_append, List.nil_append]
  rw [stripBOM_cons hdata]

theorem parse_write (d : AionStringDict) (tag : String)
    (htag : ValidTagChars tag.data)
    (hval : ∀ p ∈ sortEntries d.strings, RecordValid p.2) :
    parseAionXml (stripBOM (d.write tag)) =
      .ok (some ⟨tag,
        String.mk ('\r' :: '\n' :: recordsJunk (sortEntries d.strings).length),
        (sortEntries d.strings).map (fun p => recordElem p.2)⟩) := by
  unfold parseAionXml
  rw [write_strip_data]
  rw [runM_append]
  rw [show runM (.running initCfg)
      ("<?xml version=\"1.0\" encoding=\"utf-16\"?>\r\n".data)
      = .running ⟨.beforeRoot, [], none, [], [], []⟩ from rfl]
  rw [runM_append, runM_rootOpen htag]
  rw [runM_append, runM_text (by decide)]
  rw [runM_append, runM_records _ hval]
  rw [runM_append, runM_closeTag (fun c hc => (htag.2.2 c hc).1)]
  rw [closeElement_eq _ _ _ _ _ _ rfl]
  rw [runM_finished]
  simp only [List.nil_append]
  rfl

theorem extractAion_recordElem (s : AionString)
    (htag : s.tag_name = "string" ∨ s.tag_name = "string_tip") :
    extractAion (recordElem s) = .ok s := by
  obtain ⟨tg, idv, nm, bd, mt, dt, mnt, rk⟩ := s
  simp only at htag
  rcases htag with h | h <;> subst h <;>
    cases bd <;> cases mt <;> cases dt <;> cases mnt <;> cases rk <;>
    simp [extractAion, recordElem, recordFields, XMLElement.find, VALID_TAGS,
      pyIntOpt, pyInt_intToDecimal, List.find?]

theorem dictInsert_notmem {d : List Entry} {k : Int} {v : AionString}
    (h : k ∉ d.map (fun p => p.1)) : dictInsert d k v = d ++ [(k, v)] := by
  induction d with
  | nil => rfl
  | cons p t ih =>
    obtain ⟨k2, v2⟩ := p
    simp only [List.map_cons, List.mem_cons] at h
    push_neg at h
    rw [show dictInsert ((k2, v2) :: t) k v
        = if k2 = k then (k, v) :: t else (k2, v2) :: dictInsert t k v from rfl]
    rw [if_neg (fun he => h.1 he.symm)]
    rw [ih h.2]
    rfl

theorem readEntries_records (entries : List Entry) (acc : List Entry)
    (hkeys : ∀ p ∈ entries, p.1 = p.2.id_value)
    (htags : ∀ p ∈ entries, p.2.tag_name = "string" ∨ p.2.tag_name = "string_tip")
    (hnd : NodupKeys entries)
    (hdisj : ∀ p ∈ entries, p.1 ∉ acc.map (fun q => q.1)) :
    readEntries (entries.map (fun p => recordElem p.2)) acc = .ok (acc ++ entries) := by
  induction entries generalizing acc with
  | nil => simp [readEntries]
  | cons p t ih =>
    obtain ⟨k, s⟩ := p
    rw [List.map_cons]
    rw [show readEntries (recordElem s :: t.map (fun p => recordElem p.2)) acc
        = (match extractAion (recordElem s) with
           | .error msg => .error msg
           | .ok s2 => readEntries (t.map (fun p => recordElem p.2))
               (dictInsert acc s2.id_value s2)) from rfl]
    rw [extractAion_recordElem s (htags (k, s) (List.mem_cons_self ..))]
    show readEntries (t.map (fun p => recordElem p.2)) (dictInsert acc s.id_value s) = _
    have hk : k = s.id_value := hkeys (k, s) (List.mem_cons_self ..)
    rw [← hk]
    rw [dictInsert_notmem (hdisj (k, s) (List.mem_cons_self ..))]
    simp only [NodupKeys, List.map_cons, List.nodup_cons] at hnd
    have hdisj2 : ∀ q ∈ t, q.1 ∉ (acc ++ [(k, s)]).map (fun q2 => q2.1) := by
      intro q hq hm
      rw [List.map_append, List.mem_append] at hm
      rcases hm with hm | hm
      · exact hdisj q (List.mem_cons_of_mem _ hq) hm
      · simp only [List.map_cons, List.map_nil, List.mem_singleton] at hm
        exact hnd.1 (hm ▸ List.mem_map_of_mem (fun p => p.1) hq)
    rw [ih (acc ++ [(k, s)]) (fun q hq => hkeys q (List.mem_cons_of_mem _ hq))
      (fun q hq => htags q (List.mem_cons_of_mem _ hq)) hnd.2 hdisj2]
    rw [List.append_assoc]
    rfl

/-! ## Sorting lemmas -/

theorem insertSorted_perm (p : Entry) (l : List Entry) :
    List.Perm (insertSorted p l) (p :: l) := by
  induction l with
  | nil => exact List.Perm.refl _
  | cons q t ih =>
    rw [show insertSorted p (q :: t)
        = if p.1 ≤ q.1 then p :: q :: t else q :: insertSorted p t from rfl]
    split_ifs with h
    · exact List.Perm.refl _
    · exact (List.Perm.cons q ih).trans (List.Perm.swap p q t)

theorem sortEntries_perm (l : List Entry) : List.Perm (sortEntries l) l := by
  induction l with
  | nil => exact List.Perm.refl _
  | cons p t ih =>
    rw [show sortEntries (p :: t) = insertSorted p (sortEntries t) from rfl]
    exact (insertSorted_perm p (sortEntries t)).trans (List.Perm.cons p ih)

theorem dictLookup_insertSorted {p : Entry} {l : List Entry} {k : Int}
    (hnotin : p.1 ∉ l.map (fun q => q.1)) :
    dictLookup k (insertSorted p l) = dictLookup k (p :: l) := by
  induction l with
  | nil => rfl
  | cons q t ih =>
    simp only [List.map_cons, List.mem_cons] at hnotin
    push_neg at hnotin
    rw [show insertSorted p (q :: t)
        = if p.1 ≤ q.1 then p :: q :: t else q :: insertSorted p t from rfl]
    split_ifs with h
    · rfl
    · show (if q.1 = k then some q.2 else dictLookup k (insertSorted p t)) = _
      rw [ih hnotin.2]
      show _ = (if p.1 = k then some p.2 else dictLookup k (q :: t))
      by_cases hq : q.1 = k
      · rw [if_pos hq]
        rw [if_neg (fun hp => hnotin.1 (hp.trans hq.symm))]
        show _ = (if q.1 = k then some q.2 else dictLookup k t)
        rw [if_pos hq]
      · rw [if_neg hq]
        show (if p.1 = k then some p.2 else dictLookup k t) = _
        by_cases hp : p.1 = k
        · rw [if_pos hp, if_pos hp]
        · rw [if_neg hp, if_neg hp]
          show _ = (if q.1 = k then some q.2 else dictLookup k t)
          rw [if_neg hq]

theorem dictLookup_sortEntries {l : List Entry} (hnd : NodupKeys l) (k : Int) :
    dictLookup k (sortEntries l) = dictLookup k l := by
  induction l with
  | nil => rfl
  | cons p t ih =>
    simp only [NodupKeys, List.map_cons, List.nodup_cons] at hnd
    rw [show sortEntries (p :: t) = insertSorted p (sortEntries t) from rfl]
    have hnotin : p.1 ∉ (sortEntries t).map (fun q => q.1) := by
      intro hm
      exact hnd.1 (((sortEntries_perm t).map (fun q => q.1)).mem_iff.1 hm)
    rw [dictLookup_insertSorted hnotin]
    show (if p.1 = k then some p.2 else dictLookup k (sortEntries t)) = _
    rw [ih hnd.2]
    rfl

def KeysSorted : List Entry → Prop := List.Pairwise (fun a b => a.1 ≤ b.1)

theorem insertSorted_sorted (p : Entry) {l : List Entry} (hl : KeysSorted l) :
    KeysSorted (insertSorted p l) := by
  induction l with
  | nil => exact List.pairwise_singleton _ _
  | cons q t ih =>
    rw [show insertSorted p (q :: t)
        = if p.1 ≤ q.1 then p :: q :: t else q :: insertSorted p t from rfl]
    rw [KeysSorted, List.pairwise_cons] at hl
    split_ifs with h
    · rw [KeysSorted, List.pairwise_cons]
      refine ⟨?_, hl.2.cons hl.1⟩
      intro r hr
      rcases List.mem_cons.1 hr with rfl | hm
      · exact h
      · exact le_trans h (hl.1 r hm)
    · rw [KeysSorted, List.pairwise_cons]
      refine ⟨?_, ih hl.2⟩
      intro r hr
      rcases List.mem_cons.1 ((insertSorted_perm p t).mem_iff.1 hr) with rfl | hm
      · omega
      · exact hl.1 r hm

theorem sortEntries_sorted (l : List Entry) : KeysSorted (sortEntries l) := by
  induction l with
  | nil => exact List.Pairwise.nil
  | cons p t ih => exact insertSorted_sorted p ih

theorem insertSorted_of_le {p : Entry} {l : List Entry}
    (h : ∀ q ∈ l, p.1 ≤ q.1) : insertSorted p l = p :: l := by
  cases l with
  | nil => rfl
  | cons q t =>
    rw [show insertSorted p (q :: t)
        = if p.1 ≤ q.1 then p :: q :: t else q :: insertSorted p t from rfl]
    rw [if_pos (h q (List.mem_cons_self ..))]

theorem sortEntries_of_sorted {l : List Entry} (hl : KeysSorted l) :
    sortEntries l = l := by
  induction l with
  | nil => rfl
  | cons p t ih =>
    rw [KeysSorted, List.pairwise_cons] at hl
    rw [show sortEntries (p :: t) = insertSorted p (sortEntries t) from rfl]
    rw [ih hl.2]
    exact insertSorted_of_le hl.1

theorem sortEntries_idem (l : List Entry) :
    sortEntries (sortEntries l) = sortEntries l :=
  sortEntries_of_sorted (sortEntries_sorted l)

/-! ## The round trip -/

/-- No `<` in any of the record's free-text field values (an absent
optional field imposes nothing). -/
abbrev NoLtFields (s : AionString) : Prop :=
  (∀ c ∈ s.name.data, c ≠ '<') ∧
  (∀ c ∈ (s.body.getD "").data, c ≠ '<') ∧
  (∀ c ∈ (s.message_type.getD "").data, c ≠ '<') ∧
  (∀ c ∈ (s.ment.getD "").data, c ≠ '<')

theorem recordFields_mem {s : AionString} {p : String × String}
    (hp : p ∈ recordFields s) :
    p = ("id", intToDecimal s.id_value) ∨ p = ("name", s.name) ∨
    (∃ b, s.body = some b ∧ p = ("body", b)) ∨
    (∃ v, s.message_type = some v ∧ p = ("message_type", v)) ∨
    (∃ v, s.display_type = some v ∧ p = ("display_type", intToDecimal v)) ∨
    (∃ v, s.ment = some v ∧ p = ("ment", v)) ∨
    (∃ v, s.rank = some v ∧ p = ("rank", intToDecimal v)) := by
  obtain ⟨tg, idv, nm, bd, mt, dt, mnt, rk⟩ := s
  unfold recordFields at hp
  simp only at hp ⊢
  cases bd <;> cases mt <;> cases dt <;> cases mnt <;> cases rk <;>
    simp_all

theorem recordValid_of {s : AionString}
    (htag : s.tag_name = "string" ∨ s.tag_name = "string_tip")
    (hnolt : NoLtFields s) : RecordValid s := by
  constructor
  · rcases htag with h | h <;> rw [h] <;> decide
  · intro p hp
    obtain ⟨h1, h2, h3, h4⟩ := hnolt
    rcases recordFields_mem hp with h | h | ⟨b, hb, h⟩ | ⟨v, hv, h⟩
      | ⟨v, hv, h⟩ | ⟨v, hv, h⟩ | ⟨v, hv, h⟩ <;> subst h
    · exact ⟨show ValidTagChars "id".data by decide, intToDecimal_no_lt _⟩
    · exact ⟨show ValidTagChars "name".data by decide, h1⟩
    · refine ⟨show ValidTagChars "body".data by decide, ?_⟩
      rw [show s.body.getD "" = b from by rw [hb]; rfl] at h2
      exact h2
    · refine ⟨show ValidTagChars "message_type".data by decide, ?_⟩
      rw [show s.message_type.getD "" = v from by rw [hv]; rfl] at h3
      exact h3
    · exact ⟨show ValidTagChars "display_type".data by decide, intToDecimal_no_lt _⟩
    · refine ⟨show ValidTagChars "ment".data by decide, ?_⟩
      rw [show s.ment.getD "" = v from by rw [hv]; rfl] at h4
      exact h4
    · exact ⟨show ValidTagChars "rank".data by decide, intToDecimal_no_lt _⟩

theorem read_write (d : AionStringDict) (tag : String)
    (htag : ValidTagChars tag.data)
    (hkeys : ∀ p ∈ d.strings, p.1 = p.2.id_value)
    (hnd : NodupKeys d.strings)
    (htags : ∀ p ∈ d.strings, p.2.tag_name = "string" ∨ p.2.tag_name = "string_tip")
    (hnolt : ∀ p ∈ d.strings, NoLtFields p.2) :
    AionStringDict.read (d.write tag) = .ok ⟨sortEntries d.strings⟩ := by
  have hperm := sortEntries_perm d.strings
  have hval : ∀ p ∈ sortEntries d.strings, RecordValid p.2 := fun p hp =>
    recordValid_of (htags p (hperm.subset hp)) (hnolt p (hperm.subset hp))
  unfold AionStringDict.read
  rw [parse_write d tag htag hval]
  show (match readEntries ((sortEntries d.strings).map (fun p => recordElem p.2)) [] with
    | Except.error msg => Except.error msg
    | Except.ok entries => Except.ok (AionStringDict.mk entries)) = _
  rw [readEntries_records (sortEntries d.strings) []
    (fun p hp => hkeys p (hperm.subset hp))
    (fun p hp => htags p (hperm.subset hp))
    ((hperm.map (fun p => p.1)).nodup_iff.2 hnd)
    (fun p hp hm => by simp at hm)]
  rw [List.nil_append]

/-- Python `==` on two tables: the same key-value mapping. -/
def dictEq (a b : AionStringDict) : Prop :=
  ∀ k, dictLookup k a.strings = dictLookup k b.strings

def c1badRec : AionString := ⟨"foo", 1, "a", none, none, none, none, none⟩

def c1bad : AionStringDict := ⟨[(1, c1badRec)]⟩

set_option maxRecDepth 8192 in
/-- C1 counterexample.  A table whose field values contain no `<` anywhere
(even its element tag name `"foo"` is `<`-free) serializes fine, but
loading the serialized text fails the schema check — so neither
round-trip equation of the claim holds for every such table. -/
theorem C1_counterexample :
    NoLtFields c1badRec ∧
    (∀ c ∈ c1badRec.tag_name.data, c ≠ '<') ∧
    AionStringDict.read (c1bad.write "strings")
      = .error "Expected <string> or <string_tip> element, got <foo> instead!" := by
  refine ⟨by decide, by decide, ?_⟩
  rfl

/-- C1 (amended).  Round trip: for every well-formed table — unique keys,
each record stored under its own id, record tag names among the two the
loader accepts (`string` / `string_tip`), and no `<` in the text field
values — reading back the serialized text succeeds and yields a table
equal (as a key-value mapping, which is Python dict equality) to the
original, and serializing that parsed table reproduces the exact same
text: the canonical form is a fixed point. -/
theorem C1_roundtrip (d : AionStringDict) (tag : String)
    (htag : ValidTagChars tag.data)
    (hkeys : ∀ p ∈ d.strings, p.1 = p.2.id_value)
    (hnd : NodupKeys d.strings)
    (htags : ∀ p ∈ d.strings, p.2.tag_name = "string" ∨ p.2.tag_name = "string_tip")
    (hnolt : ∀ p ∈ d.strings, NoLtFields p.2) :
    ∃ d2, AionStringDict.read (d.write tag) = .ok d2 ∧
      dictEq d2 d ∧ d2.write tag = d.write tag := by
  refine ⟨⟨sortEntries d.strings⟩, read_write d tag htag hkeys hnd htags hnolt, ?_, ?_⟩
  · exact fun k => dictLookup_sortEntries hnd k
  · show "﻿<?xml version=\"1.0\" encoding=\"utf-16\"?>\r\n"
      ++ "<" ++ tag ++ ">\r\n"
      ++ concatStrings ((sortEntries (sortEntries d.strings)).map
          (fun p => writeRecord p.2))
      ++ "</" ++ tag ++ ">\r\n" = _
    rw [sortEntries_idem]
    rfl

theorem C1_roundtrip_witness :
    ValidTagChars "strings".data ∧
    (∀ p ∈ wAlphaDict.strings, p.1 = p.2.id_value) ∧
    NodupKeys wAlphaDict.strings ∧
    (∀ p ∈ wAlphaDict.strings,
      p.2.tag_name = "string" ∨ p.2.tag_name = "string_tip") ∧
    (∀ p ∈ wAlphaDict.strings, NoLtFields p.2) ∧
    (∃ d2, AionStringDict.read (wAlphaDict.write "strings") = .ok d2 ∧
      dictEq d2 wAlphaDict ∧ d2.write "strings" = wAlphaDict.write "strings") :=
  ⟨by decide, by decide, by decide, by decide, by decide,
    C1_roundtrip wAlphaDict "strings" (by decide) (by decide) (by decide)
      (by decide) (by decide)⟩
